import Mathlib

/-!
Verification of the `jsonobj` package (unknown-field retention for JSON
marshalling) against its specification.

The development shallowly embeds `src/jsonobj/retain.go`:

* `JSONValue` models a parsed JSON document tree; a `json.RawMessage` held in
  `Retain.raw` is modelled by the parsed `JSONValue` it denotes.
* Go's `map[string]json.RawMessage` is modelled by an association list with
  overwrite-on-insert (`insertRaw`) and delete (`eraseRaw`); map identity of
  contents is compared with `lookupRaw`, never with list order, mirroring the
  unordered Go map.
* A struct field's `json` tag is represented by its comma-split components,
  i.e. the `strings.Split(tagValue, ",")` value that `forJSONField` builds;
  the source's one check on the raw string, `tagValue == "-"`, holds exactly
  when the components are `["-"]`, so no information is lost.
* The external codec (`encoding/json`) is modelled by `decodeInto` /
  `encodeValue` over a small universe of Go value shapes (`GoValue`), by the
  merge semantics of `json.Unmarshal` into an existing map
  (`unmarshalIntoRawMap`), and by the `%T` type name carried on `GoAny`.
* Mutation through the `obj any` pointer is modelled by explicit state
  passing: `Retain.FromJSON` returns the error outcome together with the
  updated retained state and the updated object, keeping Go's best-effort
  (non-transactional) partial updates on error.
-/

/-- A parsed JSON document value. -/
inductive JSONValue where
  | null
  | bool (b : Bool)
  | num (n : Int)
  | str (s : String)
  | arr (elems : List JSONValue)
  | obj (members : List (String × JSONValue))

/-- `RawMap` models Go's `map[string]json.RawMessage` (and the `map[string]any`
built by `ToJSON`): an association list whose observable content is its
`lookupRaw` function. -/
abbrev RawMap := List (String × JSONValue)

/-- Map lookup: the value bound to `k`, if any. -/
def lookupRaw (k : String) : RawMap → Option JSONValue
  | [] => none
  | (k', v) :: rest => if k' = k then some v else lookupRaw k rest

/-- Map deletion (`delete(m, k)`): removes every binding of `k`. -/
def eraseRaw (k : String) : RawMap → RawMap
  | [] => []
  | (k', v) :: rest => if k' = k then eraseRaw k rest else (k', v) :: eraseRaw k rest

/-- Map insert with overwrite (`m[k] = v`). -/
def insertRaw (k : String) (v : JSONValue) (m : RawMap) : RawMap :=
  (k, v) :: eraseRaw k m

/-- The keys of a map. -/
def keysOf (m : RawMap) : List String := m.map Prod.fst

/-- Two documents are equal under key-set/value equality (order independent)
iff they bind the same keys to the same values. -/
def DocEquiv (a b : RawMap) : Prop := ∀ k, lookupRaw k a = lookupRaw k b

/-- The Go types a declared field may have in the model: scalars, slices,
string-keyed maps, and fixed-size arrays. -/
inductive GoType where
  | stringT
  | intT
  | boolT
  | sliceT (elem : GoType)
  | mapT (val : GoType)
  | arrayT (n : Nat) (elem : GoType)
deriving DecidableEq, Repr

/-- A Go value of one of the modelled types. `slice none` / `mapV none` are
the nil slice and nil map, distinct from their empty non-nil forms. -/
inductive GoValue where
  | str (s : String)
  | int (n : Int)
  | bool (b : Bool)
  | slice (elems : Option (List GoValue))
  | mapV (entries : Option (List (String × GoValue)))
  | array (elems : List GoValue)

/-- The zero value of a Go type (what a fresh struct field holds). -/
def zeroValue : GoType → GoValue
  | .stringT => .str ""
  | .intT => .int 0
  | .boolT => .bool false
  | .sliceT _ => .slice none
  | .mapT _ => .mapV none
  | .arrayT n t => .array (List.replicate n (zeroValue t))

/-- Embeds `isZero` from retain.go: arrays, maps and slices are zero when
their length is 0; other kinds when they hold the reflect zero value. -/
def isZero : GoValue → Bool
  | .str s => s = ""
  | .int n => n = 0
  | .bool b => b = false
  | .slice none => true
  | .slice (some l) => l.isEmpty
  | .mapV none => true
  | .mapV (some l) => l.isEmpty
  | .array l => l.isEmpty

mutual

/-- The external codec's `json.Unmarshal` of a raw value into a typed field
(`decodeInto(rawValue, typedTarget)` in the spec): succeeds exactly when the
JSON shape matches the Go type; `null` decodes to the nil slice / nil map. -/
def decodeInto : GoType → JSONValue → Option GoValue
  | .stringT, .str s => some (.str s)
  | .intT, .num n => some (.int n)
  | .boolT, .bool b => some (.bool b)
  | .sliceT _, .null => some (.slice none)
  | .sliceT t, .arr xs =>
    match decodeList t xs with
    | some vs => some (.slice (some vs))
    | none => none
  | .mapT _, .null => some (.mapV none)
  | .mapT t, .obj kvs =>
    match decodeEntries t kvs with
    | some vs => some (.mapV (some vs))
    | none => none
  | .arrayT n t, .arr xs =>
    if xs.length = n then
      match decodeList t xs with
      | some vs => some (.array vs)
      | none => none
    else none
  | _, _ => none

/-- Element-wise decoding of a JSON array. -/
def decodeList (t : GoType) : List JSONValue → Option (List GoValue)
  | [] => some []
  | x :: xs =>
    match decodeInto t x, decodeList t xs with
    | some v, some vs => some (v :: vs)
    | _, _ => none

/-- Entry-wise decoding of a JSON object into map entries. -/
def decodeEntries (t : GoType) : List (String × JSONValue) → Option (List (String × GoValue))
  | [] => some []
  | (k, x) :: xs =>
    match decodeInto t x, decodeEntries t xs with
    | some v, some vs => some ((k, v) :: vs)
    | _, _ => none

end

mutual

/-- The external codec's `json.Marshal` of a Go value
(`encodeValue` in the spec). Nil slices and nil maps marshal to `null`. -/
def encodeValue : GoValue → JSONValue
  | .str s => .str s
  | .int n => .num n
  | .bool b => .bool b
  | .slice none => .null
  | .slice (some l) => .arr (encodeList l)
  | .mapV none => .null
  | .mapV (some l) => .obj (encodeEntriesGo l)
  | .array l => .arr (encodeList l)

/-- Element-wise encoding of a slice or array. -/
def encodeList : List GoValue → List JSONValue
  | [] => []
  | v :: vs => encodeValue v :: encodeList vs

/-- Entry-wise encoding of a Go map. -/
def encodeEntriesGo : List (String × GoValue) → List (String × JSONValue)
  | [] => []
  | (k, v) :: vs => (k, encodeValue v) :: encodeEntriesGo vs

end

/-- One declared struct field: its Go field name, whether it is exported,
its `json` tag as comma-split components (`strings.Split(tagValue, ",")`,
so a field with no tag carries `[""]`), and its type. -/
structure GoStructField where
  fieldName : String
  exported : Bool
  tag : List String
  fieldType : GoType
deriving DecidableEq, Repr

/-- A field together with the value it currently holds in a record. -/
structure FieldState where
  decl : GoStructField
  value : GoValue

/-- A struct record: its declared fields with their current values. -/
structure Record where
  fields : List FieldState

/-- Embeds the skip tests in `forJSONField`: a field participates unless it
is unexported or its raw tag is exactly `-` (whose split form is `["-"]`). -/
def isActive (f : GoStructField) : Bool :=
  f.exported && !(f.tag = ["-"] : Bool)

/-- Embeds `jsonTag.name`: the first tag component if non-empty, otherwise
the Go field name. -/
def tagName (f : GoStructField) : String :=
  match f.tag.head? with
  | some n => if n ≠ "" then n else f.fieldName
  | none => f.fieldName

/-- Embeds `jsonTag.omitEmpty`: true exactly when a second tag component
exists and equals `omitempty`. -/
def tagOmitEmpty (f : GoStructField) : Bool :=
  match f.tag.get? 1 with
  | some c => c = "omitempty"
  | none => false

/-- A dynamically typed Go argument (`obj any`): a pointer to a struct, a
struct value, or anything else; each carries its `%T` rendering. -/
inductive GoAny where
  | ptrStruct (tyName : String) (r : Record)
  | valStruct (tyName : String) (r : Record)
  | nonStruct (tyName : String)

/-- The `%T` rendering of an argument. -/
def GoAny.typeName : GoAny → String
  | .ptrStruct n _ => n
  | .valStruct n _ => n
  | .nonStruct n => n

/-- Embeds `ensureStruct`: dereference one pointer level, reject non-pointer
arguments when a pointer is required, and require a struct kind. -/
def ensureStruct (obj : GoAny) (requirePtr : Bool) : Option Record :=
  match obj with
  | .ptrStruct _ r => some r
  | .valStruct _ r => if requirePtr then none else some r
  | .nonStruct _ => none

/-- The retained unknown fields (`Retain` in retain.go): `none` models the
nil map. -/
structure Retain where
  raw : Option RawMap

/-- Lookup in a possibly-nil map: a nil map has no entries. -/
def lookupRetain (k : String) : Option RawMap → Option JSONValue
  | none => none
  | some m => lookupRaw k m

/-- Embeds `json.Unmarshal(data, &r.raw)`: a JSON `null` zeroes the map; an
object is merged into the existing map (entries are kept, same-named incoming
entries overwrite, later duplicate keys in the document win); any other JSON
value is a codec type error, surfaced unchanged. -/
def unmarshalIntoRawMap (prior : Option RawMap) (data : JSONValue) :
    Except String (Option RawMap) :=
  match data with
  | .null => .ok none
  | .obj kvs => .ok (some (kvs.foldl (fun m kv => insertRaw kv.1 kv.2 m) (prior.getD [])))
  | _ => .error "json: cannot unmarshal value into Go value of type map[string]json.RawMessage"

/-- Embeds the `forJSONField` loop inside `FromJSON`: for each exported,
non-ignored field, look its canonical name up in the raw map; if present,
delete the entry and decode it into the field, stopping at the first codec
error (entries already deleted and fields already written stay changed). -/
def fromJSONFields : List FieldState → Option RawMap →
    Except String Unit × List FieldState × Option RawMap
  | [], raw => (.ok (), [], raw)
  | f :: rest, raw =>
    if isActive f.decl then
      match lookupRetain (tagName f.decl) raw with
      | none =>
        let (res, fs, raw') := fromJSONFields rest raw
        (res, f :: fs, raw')
      | some j =>
        let raw1 := raw.map (eraseRaw (tagName f.decl))
        match decodeInto f.decl.fieldType j with
        | none =>
          (.error ("json: cannot unmarshal value into Go struct field " ++ tagName f.decl),
            f :: rest, raw1)
        | some v =>
          let (res, fs, raw') := fromJSONFields rest raw1
          (res, { f with value := v } :: fs, raw')
    else
      let (res, fs, raw') := fromJSONFields rest raw
      (res, f :: fs, raw')

/-- Embeds `Retain.FromJSON`. The triple returned models in-place mutation:
the error outcome, the retained state after the call, and the object after
the call. -/
def Retain.FromJSON (r : Retain) (data : JSONValue) (obj : GoAny) :
    Except String Unit × Retain × GoAny :=
  match ensureStruct obj true with
  | none =>
    (.error ("FromJSON requires a struct pointer, got " ++ obj.typeName), r, obj)
  | some rec =>
    match unmarshalIntoRawMap r.raw data with
    | .error e => (.error e, r, obj)
    | .ok raw0 =>
      match fromJSONFields rec.fields raw0 with
      | (.error e, fields1, raw1) =>
        (.error e, ⟨raw1⟩, .ptrStruct obj.typeName ⟨fields1⟩)
      | (.ok (), fields1, raw1) =>
        let rawFinal := if (raw1.getD []).isEmpty then none else raw1
        (.ok (), ⟨rawFinal⟩, .ptrStruct obj.typeName ⟨fields1⟩)

/-- Embeds the `forJSONField` loop inside `ToJSON`: for each exported,
non-ignored field, skip it when `omitempty` is set and the value is zero,
otherwise overwrite the working map at the canonical name with the field's
value. -/
def toJSONFields (base : RawMap) : List FieldState → RawMap
  | [] => base
  | f :: rest =>
    if isActive f.decl then
      if tagOmitEmpty f.decl && isZero f.value then toJSONFields base rest
      else toJSONFields (insertRaw (tagName f.decl) (encodeValue f.value) base) rest
    else toJSONFields base rest

/-- Embeds `Retain.ToJSON`: requires a struct (value or pointer), copies the
retained state into a fresh working map, overlays the declared fields, and
returns the merged document (the map handed to `json.Marshal`). -/
def Retain.ToJSON (r : Retain) (obj : GoAny) : Except String RawMap :=
  match ensureStruct obj false with
  | none => .error ("ToJSON requires a struct, got " ++ obj.typeName)
  | some rec => .ok (toJSONFields (r.raw.getD []) rec.fields)

/-- Go's `%q` rendering of a plain name. -/
def goQuote (s : String) : String := "\"" ++ s ++ "\""

/-- Embeds `verifyNoDuplicateFieldNames`: walks the exported, non-ignored
fields accumulating seen canonical names, failing on the first repeat. -/
def verifyNoDuplicateFieldNames : List GoStructField → List String → Option String
  | [], _ => none
  | f :: rest, seen =>
    if isActive f then
      if tagName f ∈ seen then some ("duplicate JSON field " ++ goQuote (tagName f))
      else verifyNoDuplicateFieldNames rest (tagName f :: seen)
    else verifyNoDuplicateFieldNames rest seen

/-- The first tag component (after the name) that is neither empty nor
`omitempty`, scanning left to right. -/
def firstBadComponent : List String → Option String
  | [] => none
  | t :: rest => if t ≠ "" && t ≠ "omitempty" then some t else firstBadComponent rest

/-- Embeds `verifyNoUnsupportedTags`: for each exported, non-ignored field
with more than one tag component, every component after the first must be
empty or `omitempty`. -/
def verifyNoUnsupportedTags : List GoStructField → Option String
  | [] => none
  | f :: rest =>
    if isActive f then
      if f.tag.length ≤ 1 then verifyNoUnsupportedTags rest
      else
        match firstBadComponent f.tag.tail with
        | some t =>
          some ("field " ++ goQuote (tagName f) ++ " has unsupported tag " ++ goQuote t)
        | none => verifyNoUnsupportedTags rest
    else verifyNoUnsupportedTags rest

/-- Embeds `Retainable`: requires a struct pointer, then no duplicate field
names, then no unsupported tags; any failure is wrapped as
`%T not Retainable: %v`. Returns `none` when the type is Retainable. -/
def Retainable (obj : GoAny) : Option String :=
  match ensureStruct obj true with
  | none => some (obj.typeName ++ " not Retainable: requires struct pointer")
  | some rec =>
    match verifyNoDuplicateFieldNames (rec.fields.map FieldState.decl) [] with
    | some e => some (obj.typeName ++ " not Retainable: " ++ e)
    | none =>
      match verifyNoUnsupportedTags (rec.fields.map FieldState.decl) with
      | some e => some (obj.typeName ++ " not Retainable: " ++ e)
      | none => none

/-- A heap of Go maps, used to model the aliasing behaviour of `ToJSON`: each
`map[string]json.RawMessage` / `map[string]any` value lives at an index. -/
structure Heap where
  maps : List RawMap

/-- Read the map stored at a reference. -/
def Heap.read (h : Heap) (ref : Nat) : RawMap := (h.maps[ref]?).getD []

/-- Overwrite the map stored at a reference. -/
def Heap.write (h : Heap) (ref : Nat) (m : RawMap) : Heap := ⟨h.maps.set ref m⟩

/-- Allocate a fresh map (`make(map[string]any, ...)`) holding `m`. -/
def Heap.alloc (h : Heap) (m : RawMap) : Heap × Nat :=
  (⟨h.maps ++ [m]⟩, h.maps.length)

/-- In-place `all[k] = v` on the map at `ref`. -/
def heapInsert (h : Heap) (ref : Nat) (k : String) (v : JSONValue) : Heap :=
  h.write ref (insertRaw k v (h.read ref))

/-- The `ToJSON` field loop acting on the working map at `allRef`. -/
def toJSONFieldsHeap (allRef : Nat) : List FieldState → Heap → Heap
  | [], h => h
  | f :: rest, h =>
    if isActive f.decl then
      if tagOmitEmpty f.decl && isZero f.value then toJSONFieldsHeap allRef rest h
      else
        toJSONFieldsHeap allRef rest
          (heapInsert h allRef (tagName f.decl) (encodeValue f.value))
    else toJSONFieldsHeap allRef rest h

/-- Heap-level embedding of `Retain.ToJSON`: the record's retained state is
the map at `rawRef` (or nil); the code allocates a fresh working map, copies
the retained entries into it, and mutates only that fresh map. -/
def ToJSONHeap (h : Heap) (rawRef : Option Nat) (obj : GoAny) :
    Heap × Except String RawMap :=
  match ensureStruct obj false with
  | none => (h, .error ("ToJSON requires a struct, got " ++ obj.typeName))
  | some rec =>
    let src := match rawRef with
      | none => []
      | some ref => h.read ref
    let (h1, allRef) := h.alloc src
    let h2 := toJSONFieldsHeap allRef rec.fields h1
    (h2, .ok (h2.read allRef))

/-! ### Association-map lemmas -/

theorem lookupRaw_eraseRaw (k k' : String) (m : RawMap) :
    lookupRaw k (eraseRaw k' m) = if k' = k then none else lookupRaw k m := by
  induction m with
  | nil => simp [eraseRaw, lookupRaw]
  | cons hd tl ih =>
    obtain ⟨k₀, v₀⟩ := hd
    by_cases h₀ : k₀ = k'
    · subst h₀
      by_cases h₁ : k₀ = k
      · subst h₁
        simp [eraseRaw, lookupRaw, ih]
      · simp [eraseRaw, lookupRaw, h₁, ih]
    · by_cases h₁ : k₀ = k
      · subst h₁
        simp [eraseRaw, lookupRaw, h₀, Ne.symm h₀]
      · simp [eraseRaw, lookupRaw, h₀, h₁, ih]

theorem lookupRaw_insertRaw (k k' : String) (v : JSONValue) (m : RawMap) :
    lookupRaw k (insertRaw k' v m) = if k' = k then some v else lookupRaw k m := by
  by_cases h : k' = k
  · simp [insertRaw, lookupRaw, h]
  · simp [insertRaw, lookupRaw, h, lookupRaw_eraseRaw]

theorem eraseRaw_sublist (k : String) (m : RawMap) : (eraseRaw k m).Sublist m := by
  induction m with
  | nil => simp [eraseRaw]
  | cons hd tl ih =>
    obtain ⟨k₀, v₀⟩ := hd
    by_cases h : k₀ = k
    · simpa [eraseRaw, h] using ih.cons (k₀, v₀)
    · simpa [eraseRaw, h] using ih.cons₂ (k₀, v₀)

theorem not_mem_keysOf_eraseRaw (k : String) (m : RawMap) :
    k ∉ keysOf (eraseRaw k m) := by
  induction m with
  | nil => simp [eraseRaw, keysOf]
  | cons hd tl ih =>
    obtain ⟨k₀, v₀⟩ := hd
    by_cases h : k₀ = k
    · simpa [eraseRaw, h] using ih
    · simp [eraseRaw, h, keysOf] at ih ⊢
      exact ⟨fun hk => h hk.symm, ih⟩

theorem keysOf_nodup_eraseRaw (k : String) (m : RawMap) (h : (keysOf m).Nodup) :
    (keysOf (eraseRaw k m)).Nodup :=
  List.Nodup.sublist (List.Sublist.map Prod.fst (eraseRaw_sublist k m)) h

theorem keysOf_nodup_insertRaw (k : String) (v : JSONValue) (m : RawMap)
    (h : (keysOf m).Nodup) : (keysOf (insertRaw k v m)).Nodup := by
  simp only [insertRaw, keysOf, List.map_cons, List.nodup_cons]
  exact ⟨not_mem_keysOf_eraseRaw k m, keysOf_nodup_eraseRaw k m h⟩

theorem mem_keysOf_iff_lookupRaw (k : String) (m : RawMap) :
    k ∈ keysOf m ↔ (lookupRaw k m).isSome := by
  induction m with
  | nil => simp [keysOf, lookupRaw]
  | cons hd tl ih =>
    obtain ⟨k₀, v₀⟩ := hd
    by_cases h : k₀ = k
    · subst h
      simp [keysOf, lookupRaw]
    · have hne : ¬k = k₀ := fun hk => h hk.symm
      simp only [keysOf, List.map_cons, List.mem_cons, lookupRaw, if_neg h]
      rw [show List.map Prod.fst tl = keysOf tl from rfl]
      simp [ih, hne]

theorem eq_nil_of_lookupRaw_eq_none (m : RawMap) (h : ∀ k, lookupRaw k m = none) :
    m = [] := by
  cases m with
  | nil => rfl
  | cons hd tl =>
    obtain ⟨k₀, v₀⟩ := hd
    have := h k₀
    simp [lookupRaw] at this

/-- Looking up the last binding of `k` in a raw member list (the binding that
wins when the members are folded into a Go map). -/
def lookupLast (k : String) : List (String × JSONValue) → Option JSONValue
  | [] => none
  | (k', v) :: rest =>
    match lookupLast k rest with
    | some w => some w
    | none => if k' = k then some v else none

theorem lookupRaw_foldl_insertRaw (D : List (String × JSONValue)) (base : RawMap)
    (k : String) :
    lookupRaw k (D.foldl (fun m kv => insertRaw kv.1 kv.2 m) base)
      = match lookupLast k D with
        | some w => some w
        | none => lookupRaw k base := by
  induction D generalizing base with
  | nil => simp [lookupLast]
  | cons hd tl ih =>
    obtain ⟨k₀, v₀⟩ := hd
    simp only [List.foldl_cons, ih, lookupLast]
    cases htl : lookupLast k tl with
    | some w => simp
    | none =>
      simp only [lookupRaw_insertRaw]
      by_cases hk : k₀ = k <;> simp [hk]

theorem lookupLast_eq_lookupRaw_of_nodup (D : List (String × JSONValue))
    (h : (keysOf D).Nodup) (k : String) : lookupLast k D = lookupRaw k D := by
  induction D with
  | nil => simp [lookupLast, lookupRaw]
  | cons hd tl ih =>
    obtain ⟨k₀, v₀⟩ := hd
    simp only [keysOf, List.map_cons, List.nodup_cons] at h
    simp only [lookupLast, lookupRaw, ih h.2]
    by_cases hk : k₀ = k
    · subst hk
      have : lookupRaw k₀ tl = none := by
        cases hl : lookupRaw k₀ tl with
        | none => rfl
        | some w =>
          exact absurd ((mem_keysOf_iff_lookupRaw k₀ tl).2 (by simp [hl])) h.1
      simp [this]
    · simp only [if_neg hk]
      cases lookupRaw k tl <;> simp

/-! ### Codec invertibility: a successful decode re-encodes to the original -/

mutual

theorem decodeInto_encodeValue (t : GoType) (j : JSONValue) (v : GoValue)
    (h : decodeInto t j = some v) : encodeValue v = j := by
  cases t with
  | stringT =>
    cases j <;> simp [decodeInto] at h
    cases h
    rfl
  | intT =>
    cases j <;> simp [decodeInto] at h
    cases h
    rfl
  | boolT =>
    cases j <;> simp [decodeInto] at h
    cases h
    rfl
  | sliceT te =>
    cases j with
    | null =>
      simp only [decodeInto, Option.some.injEq] at h
      subst h
      rfl
    | arr xs =>
      simp only [decodeInto] at h
      cases hl : decodeList te xs with
      | none => simp [hl] at h
      | some vs =>
        simp only [hl, Option.some.injEq] at h
        subst h
        simpa [encodeValue] using decodeList_encodeList te xs vs hl
    | bool b => simp [decodeInto] at h
    | num n => simp [decodeInto] at h
    | str s => simp [decodeInto] at h
    | obj kvs => simp [decodeInto] at h
  | mapT te =>
    cases j with
    | null =>
      simp only [decodeInto, Option.some.injEq] at h
      subst h
      rfl
    | obj kvs =>
      simp only [decodeInto] at h
      cases hl : decodeEntries te kvs with
      | none => simp [hl] at h
      | some vs =>
        simp only [hl, Option.some.injEq] at h
        subst h
        simpa [encodeValue] using decodeEntries_encodeEntriesGo te kvs vs hl
    | bool b => simp [decodeInto] at h
    | num n => simp [decodeInto] at h
    | str s => simp [decodeInto] at h
    | arr xs => simp [decodeInto] at h
  | arrayT n te =>
    cases j with
    | arr xs =>
      simp only [decodeInto] at h
      by_cases hn : xs.length = n
      · simp only [hn, if_true] at h
        cases hl : decodeList te xs with
        | none => simp [hl] at h
        | some vs =>
          simp only [hl, Option.some.injEq] at h
          subst h
          simpa [encodeValue] using decodeList_encodeList te xs vs hl
      · simp [hn] at h
    | null => simp [decodeInto] at h
    | bool b => simp [decodeInto] at h
    | num n => simp [decodeInto] at h
    | str s => simp [decodeInto] at h
    | obj kvs => simp [decodeInto] at h
termination_by sizeOf j

theorem decodeList_encodeList (t : GoType) (xs : List JSONValue) (vs : List GoValue)
    (h : decodeList t xs = some vs) : encodeList vs = xs := by
  cases xs with
  | nil =>
    simp only [decodeList, Option.some.injEq] at h
    subst h
    rfl
  | cons x rest =>
    simp only [decodeList] at h
    cases hx : decodeInto t x with
    | none => simp [hx] at h
    | some v =>
      cases hr : decodeList t rest with
      | none => simp [hx, hr] at h
      | some ws =>
        simp only [hx, hr, Option.some.injEq] at h
        subst h
        simp only [encodeList, List.cons.injEq]
        exact ⟨decodeInto_encodeValue t x v hx, decodeList_encodeList t rest ws hr⟩
termination_by sizeOf xs

theorem decodeEntries_encodeEntriesGo (t : GoType) (xs : List (String × JSONValue))
    (vs : List (String × GoValue)) (h : decodeEntries t xs = some vs) :
    encodeEntriesGo vs = xs := by
  cases xs with
  | nil =>
    simp only [decodeEntries, Option.some.injEq] at h
    subst h
    rfl
  | cons x rest =>
    rw [show x = (x.1, x.2) from rfl] at h
    simp only [decodeEntries] at h
    cases hx : decodeInto t x.2 with
    | none => simp [hx] at h
    | some v =>
      cases hr : decodeEntries t rest with
      | none => simp [hx, hr] at h
      | some ws =>
        simp only [hx, hr, Option.some.injEq] at h
        subst h
        simp only [encodeEntriesGo, List.cons.injEq]
        refine ⟨?_, decodeEntries_encodeEntriesGo t rest ws hr⟩
        rw [decodeInto_encodeValue t x.2 v hx]
termination_by sizeOf xs
decreasing_by
  all_goals simp_wf
  all_goals subst_vars
  all_goals simp only [List.cons.sizeOf_spec]
  all_goals
    first
    | omega
    | (have hx2 : sizeOf x.2 < sizeOf x := by
         have hx : x = (x.1, x.2) := rfl
         conv_rhs => rw [hx]
         simp only [Prod.mk.sizeOf_spec]
         omega
       omega)

end

/-! ### Decode-loop characterization -/

/-- The canonical names of the fields that participate in decode/encode. -/
def activeNames (fs : List FieldState) : List String :=
  (fs.filter (fun f => isActive f.decl)).map (fun f => tagName f.decl)

/-- The canonical names of participating field declarations. -/
def activeNamesD (ds : List GoStructField) : List String :=
  (ds.filter (fun f => isActive f)).map tagName

theorem mem_activeNames (fs : List FieldState) (k : String) :
    k ∈ activeNames fs ↔ ∃ f ∈ fs, isActive f.decl ∧ tagName f.decl = k := by
  simp only [activeNames, List.mem_map, List.mem_filter]
  constructor
  · rintro ⟨f, ⟨hf, ha⟩, hn⟩
    exact ⟨f, hf, ha, hn⟩
  · rintro ⟨f, hf, ha, hn⟩
    exact ⟨f, ⟨hf, ha⟩, hn⟩

theorem activeNames_cons (f : FieldState) (rest : List FieldState) :
    activeNames (f :: rest)
      = if isActive f.decl then tagName f.decl :: activeNames rest
        else activeNames rest := by
  by_cases h : isActive f.decl <;> simp [activeNames, List.filter_cons, h]

theorem lookupRetain_map_eraseRaw (k k' : String) (raw : Option RawMap) :
    lookupRetain k (raw.map (eraseRaw k'))
      = if k' = k then none else lookupRetain k raw := by
  cases raw with
  | none => simp [lookupRetain]
  | some m => simp [lookupRetain, lookupRaw_eraseRaw]

/-! Step equations for the decode loop. -/

theorem fromJSONFields_cons_inactive (f : FieldState) (rest : List FieldState)
    (raw : Option RawMap) (ha : isActive f.decl = false) :
    fromJSONFields (f :: rest) raw
      = ((fromJSONFields rest raw).1, f :: (fromJSONFields rest raw).2.1,
         (fromJSONFields rest raw).2.2) := by
  simp [fromJSONFields, ha]

theorem fromJSONFields_cons_miss (f : FieldState) (rest : List FieldState)
    (raw : Option RawMap) (ha : isActive f.decl = true)
    (hl : lookupRetain (tagName f.decl) raw = none) :
    fromJSONFields (f :: rest) raw
      = ((fromJSONFields rest raw).1, f :: (fromJSONFields rest raw).2.1,
         (fromJSONFields rest raw).2.2) := by
  simp [fromJSONFields, ha, hl]

theorem fromJSONFields_cons_hit (f : FieldState) (rest : List FieldState)
    (raw : Option RawMap) (j : JSONValue) (v : GoValue) (ha : isActive f.decl = true)
    (hl : lookupRetain (tagName f.decl) raw = some j)
    (hd : decodeInto f.decl.fieldType j = some v) :
    fromJSONFields (f :: rest) raw
      = ((fromJSONFields rest (raw.map (eraseRaw (tagName f.decl)))).1,
         { f with value := v }
           :: (fromJSONFields rest (raw.map (eraseRaw (tagName f.decl)))).2.1,
         (fromJSONFields rest (raw.map (eraseRaw (tagName f.decl)))).2.2) := by
  simp [fromJSONFields, ha, hl, hd]

theorem fromJSONFields_cons_err (f : FieldState) (rest : List FieldState)
    (raw : Option RawMap) (j : JSONValue) (ha : isActive f.decl = true)
    (hl : lookupRetain (tagName f.decl) raw = some j)
    (hd : decodeInto f.decl.fieldType j = none) :
    fromJSONFields (f :: rest) raw
      = (.error ("json: cannot unmarshal value into Go struct field " ++ tagName f.decl),
         f :: rest, raw.map (eraseRaw (tagName f.decl))) := by
  simp [fromJSONFields, ha, hl, hd]

/-- After a successful decode loop, every key claimed by some active field is
gone from the raw map and every other key is untouched. -/
theorem fromJSONFields_raw_lookup (fs : List FieldState) (raw : Option RawMap) (k : String)
    (h : (fromJSONFields fs raw).1 = Except.ok ()) :
    lookupRetain k (fromJSONFields fs raw).2.2
      = if k ∈ activeNames fs then none else lookupRetain k raw := by
  induction fs generalizing raw with
  | nil => simp [fromJSONFields, activeNames]
  | cons f rest ih =>
    by_cases ha : isActive f.decl
    · cases hl : lookupRetain (tagName f.decl) raw with
      | none =>
        rw [fromJSONFields_cons_miss f rest raw ha hl] at h ⊢
        rw [ih raw h, activeNames_cons]
        simp only [ha, if_true, List.mem_cons]
        by_cases hkf : tagName f.decl = k
        · subst hkf
          simp [hl]
        · have hkf' : ¬k = tagName f.decl := fun hh => hkf hh.symm
          simp [hkf']
      | some j =>
        cases hd : decodeInto f.decl.fieldType j with
        | none =>
          rw [fromJSONFields_cons_err f rest raw j ha hl hd] at h
          simp at h
        | some v =>
          rw [fromJSONFields_cons_hit f rest raw j v ha hl hd] at h ⊢
          rw [ih _ h, activeNames_cons, lookupRetain_map_eraseRaw]
          simp only [ha, if_true, List.mem_cons]
          by_cases hkf : tagName f.decl = k
          · subst hkf
            simp
          · have hkf' : ¬k = tagName f.decl := fun hh => hkf hh.symm
            simp [hkf, hkf']
    · rw [fromJSONFields_cons_inactive f rest raw (by simpa using ha)] at h ⊢
      rw [ih raw h, activeNames_cons]
      simp [ha]

/-- The decode loop succeeds when every raw value sitting under an active
field's canonical name decodes into that field's type. -/
theorem fromJSONFields_ok (fs : List FieldState) (raw : Option RawMap)
    (h : ∀ f ∈ fs, isActive f.decl = true →
      ∀ j, lookupRetain (tagName f.decl) raw = some j →
        (decodeInto f.decl.fieldType j).isSome) :
    (fromJSONFields fs raw).1 = Except.ok () := by
  induction fs generalizing raw with
  | nil => simp [fromJSONFields]
  | cons f rest ih =>
    by_cases ha : isActive f.decl
    · cases hl : lookupRetain (tagName f.decl) raw with
      | none =>
        rw [fromJSONFields_cons_miss f rest raw ha hl]
        exact ih raw (fun g hg hga j hj => h g (List.mem_cons_of_mem f hg) hga j hj)
      | some j =>
        cases hd : decodeInto f.decl.fieldType j with
        | none =>
          have := h f (List.mem_cons_self f rest) ha j hl
          simp [hd] at this
        | some v =>
          rw [fromJSONFields_cons_hit f rest raw j v ha hl hd]
          refine ih _ (fun g hg hga j' hj' => ?_)
          rw [lookupRetain_map_eraseRaw] at hj'
          by_cases he : tagName f.decl = tagName g.decl
          · simp [he] at hj'
          · rw [if_neg he] at hj'
            exact h g (List.mem_cons_of_mem f hg) hga j' hj'
    · rw [fromJSONFields_cons_inactive f rest raw (by simpa using ha)]
      exact ih raw (fun g hg hga j hj => h g (List.mem_cons_of_mem f hg) hga j hj)

/-- How one field ends up after the decode loop: active fields whose
canonical name is bound in the raw map receive the decoded value, every
other field keeps its value. -/
def updatedField (raw : Option RawMap) (f : FieldState) : FieldState :=
  if isActive f.decl then
    match lookupRetain (tagName f.decl) raw with
    | some j =>
      match decodeInto f.decl.fieldType j with
      | some v => { f with value := v }
      | none => f
    | none => f
  else f

theorem updatedField_decl (raw : Option RawMap) (f : FieldState) :
    (updatedField raw f).decl = f.decl := by
  unfold updatedField
  split
  · split
    · split
      · rfl
      · rfl
    · rfl
  · rfl

theorem activeNames_cons_active (f : FieldState) (rest : List FieldState)
    (ha : isActive f.decl = true) :
    activeNames (f :: rest) = tagName f.decl :: activeNames rest := by
  simp [activeNames, List.filter_cons, ha]

theorem activeNames_cons_inactive (f : FieldState) (rest : List FieldState)
    (ha : isActive f.decl = false) :
    activeNames (f :: rest) = activeNames rest := by
  simp [activeNames, List.filter_cons, ha]

/-- On a successful decode loop with no duplicate active names, the field
list is updated pointwise from the initial raw map. -/
theorem fromJSONFields_fields (fs : List FieldState) (raw : Option RawMap)
    (hnodup : (activeNames fs).Nodup)
    (h : (fromJSONFields fs raw).1 = Except.ok ()) :
    (fromJSONFields fs raw).2.1 = fs.map (updatedField raw) := by
  induction fs generalizing raw with
  | nil => simp [fromJSONFields]
  | cons f rest ih =>
    by_cases ha : isActive f.decl
    · rw [activeNames_cons_active f rest ha, List.nodup_cons] at hnodup
      cases hl : lookupRetain (tagName f.decl) raw with
      | none =>
        rw [fromJSONFields_cons_miss f rest raw ha hl] at h ⊢
        simp only [List.map_cons]
        have hf : updatedField raw f = f := by
          unfold updatedField
          simp [ha, hl]
        rw [hf, ih raw hnodup.2 h]
      | some j =>
        cases hd : decodeInto f.decl.fieldType j with
        | none =>
          rw [fromJSONFields_cons_err f rest raw j ha hl hd] at h
          simp at h
        | some v =>
          rw [fromJSONFields_cons_hit f rest raw j v ha hl hd] at h ⊢
          simp only [List.map_cons]
          have hf : updatedField raw f = { f with value := v } := by
            unfold updatedField
            simp [ha, hl, hd]
          rw [hf, ih _ hnodup.2 h]
          congr 1
          refine List.map_congr_left (fun g hg => ?_)
          unfold updatedField
          by_cases hga : isActive g.decl
          · rw [lookupRetain_map_eraseRaw]
            have hne : tagName f.decl ≠ tagName g.decl := by
              intro he
              exact hnodup.1 (he ▸ (mem_activeNames rest (tagName g.decl)).2
                ⟨g, hg, hga, rfl⟩)
            rw [if_neg hne]
          · simp [hga]
    · have ha' : isActive f.decl = false := by simpa using ha
      rw [activeNames_cons_inactive f rest ha'] at hnodup
      rw [fromJSONFields_cons_inactive f rest raw ha'] at h ⊢
      simp only [List.map_cons]
      have hf : updatedField raw f = f := by
        unfold updatedField
        simp [ha]
      rw [hf, ih raw hnodup h]

/-! ### Encode-loop characterization -/

/-- Whether the encode loop writes this field under key `k`: the field is
active, not suppressed by omit-when-empty, and its canonical name is `k`. -/
def emitsKey (f : FieldState) (k : String) : Bool :=
  isActive f.decl && !(tagOmitEmpty f.decl && isZero f.value) && (tagName f.decl = k)

/-- The value of the last field that the encode loop writes under key `k`. -/
def emittedLast : List FieldState → String → Option GoValue
  | [], _ => none
  | f :: rest, k =>
    match emittedLast rest k with
    | some v => some v
    | none => if emitsKey f k then some f.value else none

theorem lookupRaw_toJSONFields (base : RawMap) (fs : List FieldState) (k : String) :
    lookupRaw k (toJSONFields base fs)
      = match emittedLast fs k with
        | some v => some (encodeValue v)
        | none => lookupRaw k base := by
  induction fs generalizing base with
  | nil => simp [toJSONFields, emittedLast]
  | cons f rest ih =>
    by_cases ha : isActive f.decl
    · by_cases hskip : tagOmitEmpty f.decl && isZero f.value
      · have hstep : toJSONFields base (f :: rest) = toJSONFields base rest := by
          simp [toJSONFields, ha, hskip]
        have hemit : emitsKey f k = false := by
          simp [emitsKey, hskip]
        rw [hstep, ih base]
        simp only [emittedLast, hemit, if_false]
        cases emittedLast rest k <;> simp
      · have hskip' : (tagOmitEmpty f.decl && isZero f.value) = false := by
          simpa using hskip
        have hstep : toJSONFields base (f :: rest)
            = toJSONFields (insertRaw (tagName f.decl) (encodeValue f.value) base) rest := by
          simp [toJSONFields, ha, hskip']
        rw [hstep, ih]
        simp only [emittedLast]
        cases emittedLast rest k with
        | some v => simp
        | none =>
          simp only [lookupRaw_insertRaw]
          by_cases hk : tagName f.decl = k
          · simp [emitsKey, ha, hskip', hk]
          · simp [emitsKey, ha, hskip', hk]
    · have ha' : isActive f.decl = false := by simpa using ha
      have hstep : toJSONFields base (f :: rest) = toJSONFields base rest := by
        simp [toJSONFields, ha']
      have hemit : emitsKey f k = false := by
        simp [emitsKey, ha']
      rw [hstep, ih base]
      simp only [emittedLast, hemit, if_false]
      cases emittedLast rest k <;> simp

theorem keysOf_nodup_toJSONFields (base : RawMap) (fs : List FieldState)
    (h : (keysOf base).Nodup) : (keysOf (toJSONFields base fs)).Nodup := by
  induction fs generalizing base with
  | nil => simpa [toJSONFields]
  | cons f rest ih =>
    by_cases ha : isActive f.decl
    · by_cases hskip : tagOmitEmpty f.decl && isZero f.value
      · have hstep : toJSONFields base (f :: rest) = toJSONFields base rest := by
          simp [toJSONFields, ha, hskip]
        rw [hstep]
        exact ih base h
      · have hskip' : (tagOmitEmpty f.decl && isZero f.value) = false := by
          simpa using hskip
        have hstep : toJSONFields base (f :: rest)
            = toJSONFields (insertRaw (tagName f.decl) (encodeValue f.value) base) rest := by
          simp [toJSONFields, ha, hskip']
        rw [hstep]
        exact ih _ (keysOf_nodup_insertRaw _ _ _ h)
    · have ha' : isActive f.decl = false := by simpa using ha
      have hstep : toJSONFields base (f :: rest) = toJSONFields base rest := by
        simp [toJSONFields, ha']
      rw [hstep]
      exact ih base h

theorem emittedLast_isSome_iff (fs : List FieldState) (k : String) :
    (emittedLast fs k).isSome ↔ ∃ f ∈ fs, emitsKey f k := by
  induction fs with
  | nil => simp [emittedLast]
  | cons f rest ih =>
    simp only [emittedLast]
    cases hr : emittedLast rest k with
    | some v =>
      have : (emittedLast rest k).isSome := by simp [hr]
      rw [ih] at this
      obtain ⟨g, hg, hge⟩ := this
      simp only [Option.isSome_some, true_iff]
      exact ⟨g, List.mem_cons_of_mem f hg, hge⟩
    | none =>
      have hrest : ¬∃ g ∈ rest, emitsKey g k := by
        rw [← ih, hr]
        simp
      by_cases he : emitsKey f k
      · simp only [he, if_true, Option.isSome_some, true_iff]
        exact ⟨f, List.mem_cons_self f rest, he⟩
      · have he' : emitsKey f k = false := by simpa using he
        simp only [he', Bool.false_eq_true, if_false, Option.isSome_none, false_iff]
        rintro ⟨g, hg, hge⟩
        rcases List.mem_cons.1 hg with hgf | hgr
        · exact he (hgf ▸ hge)
        · exact hrest ⟨g, hgr, hge⟩

theorem emittedLast_eq_some (fs : List FieldState) (k : String) (v : GoValue)
    (h : emittedLast fs k = some v) : ∃ f ∈ fs, emitsKey f k ∧ f.value = v := by
  induction fs with
  | nil => simp [emittedLast] at h
  | cons f rest ih =>
    simp only [emittedLast] at h
    cases hr : emittedLast rest k with
    | some w =>
      rw [hr] at h
      simp only [Option.some.injEq] at h
      obtain ⟨g, hg, hge, hgv⟩ := ih (h ▸ hr)
      exact ⟨g, List.mem_cons_of_mem f hg, hge, hgv⟩
    | none =>
      rw [hr] at h
      by_cases he : emitsKey f k
      · rw [if_pos he] at h
        simp only [Option.some.injEq] at h
        exact ⟨f, List.mem_cons_self f rest, he, h⟩
      · rw [if_neg he] at h
        simp at h

/-- With no duplicate active names, at most one field can emit a given key. -/
theorem unique_active_field (fs : List FieldState) (hnodup : (activeNames fs).Nodup)
    {f g : FieldState} (hf : f ∈ fs) (hg : g ∈ fs)
    (haf : isActive f.decl = true) (hag : isActive g.decl = true)
    (hname : tagName f.decl = tagName g.decl) : f = g := by
  have hf' : f ∈ fs.filter (fun f => isActive f.decl) := List.mem_filter.2 ⟨hf, haf⟩
  have hg' : g ∈ fs.filter (fun f => isActive f.decl) := List.mem_filter.2 ⟨hg, hag⟩
  exact List.inj_on_of_nodup_map hnodup hf' hg' hname

/-- A skipped-everything encode loop leaves the working map untouched. -/
theorem toJSONFields_all_skipped (base : RawMap) (fs : List FieldState)
    (h : ∀ f ∈ fs, isActive f.decl = true →
      tagOmitEmpty f.decl = true ∧ isZero f.value = true) :
    toJSONFields base fs = base := by
  induction fs with
  | nil => rfl
  | cons f rest ih =>
    by_cases ha : isActive f.decl
    · obtain ⟨ho, hz⟩ := h f (List.mem_cons_self f rest) ha
      have hstep : toJSONFields base (f :: rest) = toJSONFields base rest := by
        simp [toJSONFields, ha, ho, hz]
      rw [hstep]
      exact ih (fun g hg hga => h g (List.mem_cons_of_mem f hg) hga)
    · have ha' : isActive f.decl = false := by simpa using ha
      have hstep : toJSONFields base (f :: rest) = toJSONFields base rest := by
        simp [toJSONFields, ha']
      rw [hstep]
      exact ih (fun g hg hga => h g (List.mem_cons_of_mem f hg) hga)

theorem lookupRaw_getD (k : String) (raw : Option RawMap) :
    lookupRaw k (raw.getD []) = lookupRetain k raw := by
  cases raw <;> simp [lookupRetain, lookupRaw]

/-! ### Heap frame lemmas for the encode path -/

theorem Heap.read_alloc (h : Heap) (m : RawMap) (ref : Nat)
    (hlt : ref < h.maps.length) : (h.alloc m).1.read ref = h.read ref := by
  simp only [Heap.alloc, Heap.read]
  rw [List.getElem?_append_left hlt]

theorem Heap.read_write_ne (h : Heap) (ref ref' : Nat) (m : RawMap)
    (hne : ref ≠ ref') : (h.write ref' m).read ref = h.read ref := by
  simp only [Heap.write, Heap.read]
  rw [List.getElem?_set_ne (fun he => hne he.symm)]

theorem toJSONFieldsHeap_read_ne (allRef : Nat) (fs : List FieldState) (h : Heap)
    (ref : Nat) (hne : ref ≠ allRef) :
    (toJSONFieldsHeap allRef fs h).read ref = h.read ref := by
  induction fs generalizing h with
  | nil => rfl
  | cons f rest ih =>
    by_cases ha : isActive f.decl
    · by_cases hskip : tagOmitEmpty f.decl && isZero f.value
      · have hstep : toJSONFieldsHeap allRef (f :: rest) h
            = toJSONFieldsHeap allRef rest h := by
          simp [toJSONFieldsHeap, ha, hskip]
        rw [hstep, ih h]
      · have hskip' : (tagOmitEmpty f.decl && isZero f.value) = false := by
          simpa using hskip
        have hstep : toJSONFieldsHeap allRef (f :: rest) h
            = toJSONFieldsHeap allRef rest
                (heapInsert h allRef (tagName f.decl) (encodeValue f.value)) := by
          simp [toJSONFieldsHeap, ha, hskip']
        rw [hstep, ih _]
        exact Heap.read_write_ne h ref allRef _ hne
    · have ha' : isActive f.decl = false := by simpa using ha
      have hstep : toJSONFieldsHeap allRef (f :: rest) h
          = toJSONFieldsHeap allRef rest h := by
        simp [toJSONFieldsHeap, ha']
      rw [hstep, ih h]

/-! ### Claim theorems -/

/-- C7: `FromJSON` rejects every argument that is not a pointer to a struct
with an error naming the received concrete type and leaves both the retained
state and the object unchanged, while `ToJSON` accepts struct values and
struct pointers alike and returns a type-naming error exactly for non-struct
arguments. -/
theorem C7_shape_preconditions :
    (∀ (r : Retain) (data : JSONValue) (ty : String) (rec : Record),
      Retain.FromJSON r data (.valStruct ty rec)
        = (.error ("FromJSON requires a struct pointer, got " ++ ty), r,
           .valStruct ty rec))
    ∧ (∀ (r : Retain) (data : JSONValue) (ty : String),
      Retain.FromJSON r data (.nonStruct ty)
        = (.error ("FromJSON requires a struct pointer, got " ++ ty), r,
           .nonStruct ty))
    ∧ (∀ (r : Retain) (ty : String) (rec : Record),
      Retain.ToJSON r (.ptrStruct ty rec)
        = .ok (toJSONFields (r.raw.getD []) rec.fields))
    ∧ (∀ (r : Retain) (ty : String) (rec : Record),
      Retain.ToJSON r (.valStruct ty rec)
        = .ok (toJSONFields (r.raw.getD []) rec.fields))
    ∧ (∀ (r : Retain) (ty : String),
      Retain.ToJSON r (.nonStruct ty)
        = .error ("ToJSON requires a struct, got " ++ ty)) := by
  refine ⟨fun r data ty rec => rfl, fun r data ty => rfl,
    fun r ty rec => rfl, fun r ty rec => rfl, fun r ty => rfl⟩

/-- C9: `ToJSON` has no observable effect on the record: the retained-state
map it starts from is only shallow-copied into a freshly allocated working
map, so every map that existed in the heap before the call — in particular
the record's stored retained state at `rawRef` — reads back unchanged
afterwards (the record's declared fields are passed by value and cannot be
written by the encode path at all). -/
theorem C9_toJSON_no_mutation (h : Heap) (rawRef : Option Nat) (obj : GoAny)
    (ref : Nat) (hlt : ref < h.maps.length) :
    (ToJSONHeap h rawRef obj).1.read ref = h.read ref := by
  unfold ToJSONHeap
  cases hs : ensureStruct obj false with
  | none => rfl
  | some rec =>
    simp only []
    have hne : ref ≠ h.maps.length := Nat.ne_of_lt hlt
    rw [toJSONFieldsHeap_read_ne (h.alloc _).2 rec.fields _ ref (by
      simpa [Heap.alloc] using hne)]
    exact Heap.read_alloc h _ ref hlt

/-- Witness for C9 at a concrete heap: one retained map at reference 0,
encoding a one-field struct whose field overwrites the same key. -/
theorem C9_toJSON_no_mutation_witness :
    (0 < (Heap.mk [[("name", JSONValue.str "kept")]]).maps.length)
    ∧ (ToJSONHeap (Heap.mk [[("name", JSONValue.str "kept")]]) (some 0)
        (.ptrStruct "*jsonobj.S"
          ⟨[⟨⟨"Name", true, ["name"], .stringT⟩, .str "new"⟩]⟩)).1.read 0
      = (Heap.mk [[("name", JSONValue.str "kept")]]).read 0 :=
  ⟨by decide,
    C9_toJSON_no_mutation (Heap.mk [[("name", JSONValue.str "kept")]]) (some 0)
      (.ptrStruct "*jsonobj.S"
        ⟨[⟨⟨"Name", true, ["name"], .stringT⟩, .str "new"⟩]⟩) 0 (by decide)⟩

theorem firstBadComponent_eq_none (l : List String)
    (h : ∀ c ∈ l, c = "" ∨ c = "omitempty") : firstBadComponent l = none := by
  induction l with
  | nil => rfl
  | cons c rest ih =>
    have hc := h c (List.mem_cons_self c rest)
    have hc' : (c ≠ "" && c ≠ "omitempty") = false := by
      rcases hc with hc | hc <;> simp [hc]
    simp only [firstBadComponent, hc', Bool.false_eq_true, if_false]
    exact ih (fun d hd => h d (List.mem_cons_of_mem c hd))

/-- C5: a field whose json tag is exactly the bare literal dash is skipped by
the decode loop, the encode loop and both validation passes, while a tag of
the form dash-comma-modifier is not ignored: the field stays active under the
literal canonical name `-` and participates in encode and decode. -/
theorem C5_dash_semantics :
    (∀ (fn : String) (ty : GoType), isActive ⟨fn, true, ["-"], ty⟩ = false)
    ∧ (∀ (fn : String) (ty : GoType) (v : GoValue) (rest : List FieldState)
        (raw : Option RawMap),
      fromJSONFields (⟨⟨fn, true, ["-"], ty⟩, v⟩ :: rest) raw
        = ((fromJSONFields rest raw).1,
           ⟨⟨fn, true, ["-"], ty⟩, v⟩ :: (fromJSONFields rest raw).2.1,
           (fromJSONFields rest raw).2.2))
    ∧ (∀ (fn : String) (ty : GoType) (v : GoValue) (rest : List FieldState)
        (base : RawMap),
      toJSONFields base (⟨⟨fn, true, ["-"], ty⟩, v⟩ :: rest) = toJSONFields base rest)
    ∧ (∀ (fn : String) (ty : GoType) (ds : List GoStructField) (seen : List String),
      verifyNoDuplicateFieldNames (⟨fn, true, ["-"], ty⟩ :: ds) seen
        = verifyNoDuplicateFieldNames ds seen)
    ∧ (∀ (fn : String) (ty : GoType) (ds : List GoStructField),
      verifyNoUnsupportedTags (⟨fn, true, ["-"], ty⟩ :: ds)
        = verifyNoUnsupportedTags ds)
    ∧ (∀ (fn : String) (ty : GoType) (mods : List String), mods ≠ [] →
      isActive ⟨fn, true, "-" :: mods, ty⟩ = true
        ∧ tagName ⟨fn, true, "-" :: mods, ty⟩ = "-")
    ∧ (∀ (fn : String) (ty : GoType) (v : GoValue) (base : RawMap),
      lookupRaw "-" (toJSONFields base [⟨⟨fn, true, ["-", ""], ty⟩, v⟩])
        = some (encodeValue v))
    ∧ (∀ (fn : String) (ty : GoType) (v w : GoValue) (j : JSONValue),
      decodeInto ty j = some w →
      fromJSONFields [⟨⟨fn, true, ["-", ""], ty⟩, v⟩] (some [("-", j)])
        = (.ok (), [⟨⟨fn, true, ["-", ""], ty⟩, w⟩], some [])) := by
  refine ⟨fun fn ty => by simp [isActive], ?_, ?_, ?_, ?_, ?_, ?_, ?_⟩
  · intro fn ty v rest raw
    exact fromJSONFields_cons_inactive _ rest raw (by simp [isActive])
  · intro fn ty v rest base
    simp [toJSONFields, isActive]
  · intro fn ty ds seen
    simp [verifyNoDuplicateFieldNames, isActive]
  · intro fn ty ds
    simp [verifyNoUnsupportedTags, isActive]
  · intro fn ty mods hm
    constructor
    · cases mods with
      | nil => exact absurd rfl hm
      | cons m ms => simp [isActive]
    · rfl
  · intro fn ty v base
    have ha : isActive (⟨fn, true, ["-", ""], ty⟩ : GoStructField) = true := by
      simp [isActive]
    have ho : tagOmitEmpty (⟨fn, true, ["-", ""], ty⟩ : GoStructField) = false := by
      simp [tagOmitEmpty]
    simp [toJSONFields, ha, ho, lookupRaw_insertRaw, tagName]
  · intro fn ty v w j hd
    have ha : isActive (⟨fn, true, ["-", ""], ty⟩ : GoStructField) = true := by
      simp [isActive]
    have hl : lookupRetain (tagName (⟨fn, true, ["-", ""], ty⟩ : GoStructField))
        (some [("-", j)]) = some j := by
      simp [lookupRetain, tagName, lookupRaw]
    rw [fromJSONFields_cons_hit _ [] _ j w ha hl hd]
    simp [fromJSONFields, tagName, eraseRaw]

/-- Witness for C5: the dash-with-modifier clause instantiated at the
modifier list of the raw tags `-,` and `-,omitempty`, and the decode clause
at a concrete string value. -/
theorem C5_dash_semantics_witness :
    ((([""] : List String) ≠ []) ∧ (["omitempty"] : List String) ≠ []
      ∧ decodeInto GoType.stringT (JSONValue.str "x") = some (GoValue.str "x"))
    ∧ (isActive ⟨"DashName", true, ["-", ""], .stringT⟩ = true
      ∧ tagName ⟨"DashName", true, ["-", ""], .stringT⟩ = "-")
    ∧ (isActive ⟨"DashOmitEmpty", true, ["-", "omitempty"], .stringT⟩ = true
      ∧ tagName ⟨"DashOmitEmpty", true, ["-", "omitempty"], .stringT⟩ = "-")
    ∧ fromJSONFields [⟨⟨"DashName", true, ["-", ""], .stringT⟩, .str ""⟩]
        (some [("-", .str "x")])
      = (.ok (), [⟨⟨"DashName", true, ["-", ""], .stringT⟩, .str "x"⟩], some []) :=
  ⟨⟨by decide, by decide, rfl⟩,
    C5_dash_semantics.2.2.2.2.2.1 "DashName" .stringT [""] (by decide),
    C5_dash_semantics.2.2.2.2.2.1 "DashOmitEmpty" .stringT ["omitempty"] (by decide),
    C5_dash_semantics.2.2.2.2.2.2.2 "DashName" .stringT (.str "") (.str "x")
      (.str "x") rfl⟩

/-- C10: a tag with more than two comma-separated components passes
validation as long as every component after the name is empty or
`omitempty`, but omit-when-empty is honoured only when `omitempty` is
exactly the second component; the field split from `name,,omitempty` passes
validation yet is emitted even at its zero value. -/
theorem C10_multi_component_tags :
    (∀ (ds : List GoStructField),
      (∀ f ∈ ds, isActive f = true → ∀ c ∈ f.tag.tail, c = "" ∨ c = "omitempty") →
      verifyNoUnsupportedTags ds = none)
    ∧ (∀ f : GoStructField, tagOmitEmpty f = true ↔ f.tag.get? 1 = some "omitempty")
    ∧ verifyNoUnsupportedTags [⟨"Name", true, ["name", "", "omitempty"], .stringT⟩] = none
    ∧ tagOmitEmpty ⟨"Name", true, ["name", "", "omitempty"], .stringT⟩ = false
    ∧ lookupRaw "name"
        (toJSONFields [] [⟨⟨"Name", true, ["name", "", "omitempty"], .stringT⟩,
          .str ""⟩])
      = some (.str "") := by
  refine ⟨?_, ?_, by decide, by decide, by rfl⟩
  · intro ds h
    induction ds with
    | nil => rfl
    | cons f rest ih =>
      by_cases ha : isActive f
      · have hbad : firstBadComponent f.tag.tail = none :=
          firstBadComponent_eq_none _ (h f (List.mem_cons_self f rest) ha)
        by_cases hlen : f.tag.length ≤ 1
        · simp only [verifyNoUnsupportedTags, ha, if_true, hlen]
          exact ih (fun g hg hga => h g (List.mem_cons_of_mem f hg) hga)
        · simp only [verifyNoUnsupportedTags, ha, if_true, hlen, if_false, hbad]
          exact ih (fun g hg hga => h g (List.mem_cons_of_mem f hg) hga)
      · have ha' : isActive f = false := by simpa using ha
        simp only [verifyNoUnsupportedTags, ha', Bool.false_eq_true, if_false]
        exact ih (fun g hg hga => h g (List.mem_cons_of_mem f hg) hga)
  · intro f
    unfold tagOmitEmpty
    cases hg : f.tag.get? 1 with
    | none => simp
    | some c =>
      constructor
      · intro hc
        simp only [decide_eq_true_eq] at hc
        rw [hc]
      · intro hc
        simp only [Option.some.injEq] at hc
        simp [hc]

/-- Witness for C10: the acceptance clause applied to the one-field list of
the concrete `name,,omitempty` tag. -/
theorem C10_multi_component_tags_witness :
    ((∀ f ∈ [(⟨"Name", true, ["name", "", "omitempty"], .stringT⟩ : GoStructField)],
      isActive f = true → ∀ c ∈ f.tag.tail, c = "" ∨ c = "omitempty")
    ∧ verifyNoUnsupportedTags [⟨"Name", true, ["name", "", "omitempty"], .stringT⟩]
        = none)
    ∧ (tagOmitEmpty ⟨"Age", true, ["age", "omitempty"], .intT⟩ = true
      ↔ (["age", "omitempty"] : List String).get? 1 = some "omitempty") := by
  constructor
  · constructor
    · intro f hf ha c hc
      simp only [List.mem_singleton] at hf
      subst hf
      simp only [List.tail_cons] at hc
      rcases List.mem_cons.1 hc with hc | hc
      · exact Or.inl hc
      · rcases List.mem_cons.1 hc with hc | hc
        · exact Or.inr hc
        · simp at hc
    · exact C10_multi_component_tags.1
        [⟨"Name", true, ["name", "", "omitempty"], .stringT⟩]
        (by
          intro f hf ha c hc
          simp only [List.mem_singleton] at hf
          subst hf
          simp only [List.tail_cons] at hc
          rcases List.mem_cons.1 hc with hc | hc
          · exact Or.inl hc
          · rcases List.mem_cons.1 hc with hc | hc
            · exact Or.inr hc
            · simp at hc)
  · exact C10_multi_component_tags.2.1 ⟨"Age", true, ["age", "omitempty"], .intT⟩

/-- The one-field struct of the repository's own tests:
`Name string` with json tag `name,omitempty`. -/
def omitNameField : GoStructField := ⟨"Name", true, ["name", "omitempty"], .stringT⟩

/-- C1 counterexample: on a fresh record of the test struct `S`
(field `Name` tagged `name,omitempty`), the document `{"name":""}` — whose
only key is a known key with a decodable value — decodes successfully, but
re-encoding yields `{}`: the omit-when-empty field swallows the binding, so
the round trip is not the identity. -/
theorem C1_counterexample :
    decodeInto GoType.stringT (JSONValue.str "") = some (GoValue.str "")
    ∧ Retain.FromJSON ⟨none⟩ (.obj [("name", JSONValue.str "")])
        (.ptrStruct "*jsonobj.S" ⟨[⟨omitNameField, zeroValue .stringT⟩]⟩)
      = (.ok (), ⟨none⟩,
         .ptrStruct "*jsonobj.S" ⟨[⟨omitNameField, GoValue.str ""⟩]⟩)
    ∧ Retain.ToJSON ⟨none⟩
        (.ptrStruct "*jsonobj.S" ⟨[⟨omitNameField, GoValue.str ""⟩]⟩) = .ok []
    ∧ ¬DocEquiv [] [("name", JSONValue.str "")] := by
  refine ⟨rfl, rfl, rfl, fun h => ?_⟩
  have := h "name"
  simp [lookupRaw] at this

/-- C2 counterexample: `FromJSON` does not fully replace the retained state.
Starting from a record whose `Retain` already holds `{"old":1}`, decoding the
empty document `{}` succeeds yet keeps `old` retained — `json.Unmarshal` into
the existing non-nil map keeps existing entries — so the retained state is
not the (empty) unknown-entry set of the new document. -/
theorem C2_counterexample :
    (Retain.FromJSON ⟨some [("old", JSONValue.num 1)]⟩ (.obj [])
        (.ptrStruct "*jsonobj.S" ⟨[⟨omitNameField, GoValue.str ""⟩]⟩)).1 = .ok ()
    ∧ (Retain.FromJSON ⟨some [("old", JSONValue.num 1)]⟩ (.obj [])
        (.ptrStruct "*jsonobj.S" ⟨[⟨omitNameField, GoValue.str ""⟩]⟩)).2.1.raw
      = some [("old", JSONValue.num 1)]
    ∧ ¬(∀ k, lookupRetain k
        (Retain.FromJSON ⟨some [("old", JSONValue.num 1)]⟩ (.obj [])
          (.ptrStruct "*jsonobj.S" ⟨[⟨omitNameField, GoValue.str ""⟩]⟩)).2.1.raw
        = lookupRaw k []) := by
  refine ⟨rfl, rfl, fun h => ?_⟩
  have := h "old"
  rw [show (Retain.FromJSON ⟨some [("old", JSONValue.num 1)]⟩ (.obj [])
      (.ptrStruct "*jsonobj.S" ⟨[⟨omitNameField, GoValue.str ""⟩]⟩)).2.1.raw
      = some [("old", JSONValue.num 1)] from rfl] at this
  simp [lookupRetain, lookupRaw] at this

/-- C8 counterexample: after a successful `FromJSON` of `{"name":"x"}` — a
document every key of which is claimed by a declared field — the retained
state need not be the canonical absent value: retained entries surviving
from before the call are kept, because the codec merges into the existing
map. -/
theorem C8_counterexample :
    (Retain.FromJSON ⟨some [("old", JSONValue.num 1)]⟩
        (.obj [("name", JSONValue.str "x")])
        (.ptrStruct "*jsonobj.S" ⟨[⟨omitNameField, GoValue.str ""⟩]⟩)).1 = .ok ()
    ∧ (Retain.FromJSON ⟨some [("old", JSONValue.num 1)]⟩
        (.obj [("name", JSONValue.str "x")])
        (.ptrStruct "*jsonobj.S" ⟨[⟨omitNameField, GoValue.str ""⟩]⟩)).2.1.raw
      ≠ none :=
  ⟨rfl, fun h => Option.noConfusion h⟩

/-- C6 counterexample: the duplicate-name failure message produced by
`Retainable` reads `duplicate JSON field %q`, not `duplicate field name %q`
as the claim states. -/
theorem C6_counterexample :
    Retainable (.ptrStruct "*jsonobj.DuplicateNameTags"
        ⟨[⟨⟨"Name1", true, ["name"], .stringT⟩, GoValue.str ""⟩,
          ⟨⟨"Name2", true, ["name"], .stringT⟩, GoValue.str ""⟩]⟩)
      = some "*jsonobj.DuplicateNameTags not Retainable: duplicate JSON field \"name\""
    ∧ ("*jsonobj.DuplicateNameTags not Retainable: duplicate JSON field \"name\""
        : String)
      ≠ "*jsonobj.DuplicateNameTags not Retainable: duplicate field name \"name\"" :=
  ⟨rfl, by decide⟩

theorem lookupRetain_normalize (raw1 : Option RawMap) (k : String) :
    lookupRetain k (if (raw1.getD []).isEmpty then none else raw1)
      = lookupRetain k raw1 := by
  by_cases h : (raw1.getD []).isEmpty
  · rw [if_pos h]
    cases raw1 with
    | none => rfl
    | some m =>
      simp only [Option.getD, List.isEmpty_iff] at h
      subst h
      rfl
  · rw [if_neg h]

theorem lookupLast_eq_none_of_not_mem (k : String) (D : List (String × JSONValue))
    (h : k ∉ keysOf D) : lookupLast k D = none := by
  induction D with
  | nil => rfl
  | cons kv rest ih =>
    obtain ⟨k₀, v₀⟩ := kv
    simp only [keysOf, List.map_cons, List.mem_cons, not_or] at h
    simp only [lookupLast, ih (by simpa [keysOf] using h.2)]
    rw [if_neg (fun hh => h.1 hh.symm)]

/-- Unfolding `Retain.FromJSON` on a struct pointer and an object document:
the prior retained map is merged with the document's members (later
same-key members and incoming entries overwrite), the field loop runs, and
an empty leftover map is normalized to `nil`. -/
theorem FromJSON_obj_ptrStruct (r0 : Option RawMap) (D : List (String × JSONValue))
    (ty : String) (fields : List FieldState) :
    Retain.FromJSON ⟨r0⟩ (.obj D) (.ptrStruct ty ⟨fields⟩)
      = (match fromJSONFields fields
            (some (D.foldl (fun m kv => insertRaw kv.1 kv.2 m) (r0.getD []))) with
         | (.error e, fields1, raw1) => (.error e, ⟨raw1⟩, .ptrStruct ty ⟨fields1⟩)
         | (.ok (), fields1, raw1) =>
           (.ok (), ⟨if (raw1.getD []).isEmpty then none else raw1⟩,
            .ptrStruct ty ⟨fields1⟩)) := by
  rfl

/-- On an empty prior retained state, a successful `FromJSON` retains
exactly the unknown entries of the document: each key claimed by an active
declared field is removed and every other binding of `D` (its last binding,
when `D` repeats a key) is kept. -/
theorem fromJSON_fresh_raw_lookup (D : List (String × JSONValue)) (ty : String)
    (fields : List FieldState) (r' : Retain) (obj' : GoAny)
    (h : Retain.FromJSON ⟨none⟩ (.obj D) (.ptrStruct ty ⟨fields⟩)
          = (.ok (), r', obj')) (k : String) :
    lookupRetain k r'.raw
      = if k ∈ activeNames fields then none else lookupLast k D := by
  rw [FromJSON_obj_ptrStruct none D ty fields] at h
  cases ht : fromJSONFields fields
      (some (D.foldl (fun m kv => insertRaw kv.1 kv.2 m)
        ((none : Option RawMap).getD []))) with
  | mk res rest =>
    obtain ⟨f1, r1⟩ := rest
    rw [ht] at h
    cases res with
    | error e => simp at h
    | ok u =>
      cases u
      have hr : r'.raw = if (r1.getD []).isEmpty then none else r1 := by
        have := congrArg (fun t => t.2.1.raw) h
        simpa using this.symm
      have hok : (fromJSONFields fields
          (some (D.foldl (fun m kv => insertRaw kv.1 kv.2 m)
            ((none : Option RawMap).getD [])))).1 = Except.ok () := by
        rw [ht]
      have hlook := fromJSONFields_raw_lookup fields
        (some (D.foldl (fun m kv => insertRaw kv.1 kv.2 m)
          ((none : Option RawMap).getD []))) k hok
      rw [ht] at hlook
      rw [hr, lookupRetain_normalize, hlook]
      by_cases hk : k ∈ activeNames fields
      · simp [hk]
      · rw [if_neg hk, if_neg hk]
        show lookupRaw k (D.foldl (fun m kv => insertRaw kv.1 kv.2 m) []) = _
        rw [lookupRaw_foldl_insertRaw]
        cases lookupLast k D <;> simp [lookupRaw]

/-- C2 amended: when the record's retained state is empty before the call
(for example on a fresh record), a successful `FromJSON` leaves exactly the
unknown entries of the document retained — each key claimed by an active
declared field is removed and every other binding of `D` (its last binding,
when `D` repeats a key) is kept. In general prior retained entries are
merged with the document rather than discarded. -/
theorem C2_amended_fresh_full_replace (D : List (String × JSONValue)) (ty : String)
    (fields : List FieldState) (r' : Retain) (obj' : GoAny)
    (h : Retain.FromJSON ⟨none⟩ (.obj D) (.ptrStruct ty ⟨fields⟩)
          = (.ok (), r', obj')) (k : String) :
    lookupRetain k r'.raw
      = if k ∈ activeNames fields then none else lookupLast k D :=
  fromJSON_fresh_raw_lookup D ty fields r' obj' h k

/-- Witness for C2's amended claim: decoding
`{"name":"foo","num":1}` into a fresh record of the test struct `S` retains
exactly `num` and drops the claimed key `name`. -/
theorem C2_amended_fresh_full_replace_witness :
    Retain.FromJSON ⟨none⟩
        (.obj [("name", JSONValue.str "foo"), ("num", JSONValue.num 1)])
        (.ptrStruct "*jsonobj.S" ⟨[⟨omitNameField, zeroValue .stringT⟩]⟩)
      = (.ok (), ⟨some [("num", JSONValue.num 1)]⟩,
         .ptrStruct "*jsonobj.S" ⟨[⟨omitNameField, GoValue.str "foo"⟩]⟩)
    ∧ lookupRetain "num"
        (Retain.FromJSON ⟨none⟩
          (.obj [("name", JSONValue.str "foo"), ("num", JSONValue.num 1)])
          (.ptrStruct "*jsonobj.S" ⟨[⟨omitNameField, zeroValue .stringT⟩]⟩)).2.1.raw
      = (if "num" ∈ activeNames [⟨omitNameField, zeroValue .stringT⟩] then none
         else lookupLast "num"
           [("name", JSONValue.str "foo"), ("num", JSONValue.num 1)])
    ∧ lookupRetain "name"
        (Retain.FromJSON ⟨none⟩
          (.obj [("name", JSONValue.str "foo"), ("num", JSONValue.num 1)])
          (.ptrStruct "*jsonobj.S" ⟨[⟨omitNameField, zeroValue .stringT⟩]⟩)).2.1.raw
      = (if "name" ∈ activeNames [⟨omitNameField, zeroValue .stringT⟩] then none
         else lookupLast "name"
           [("name", JSONValue.str "foo"), ("num", JSONValue.num 1)]) :=
  ⟨rfl,
    C2_amended_fresh_full_replace
      [("name", JSONValue.str "foo"), ("num", JSONValue.num 1)] "*jsonobj.S"
      [⟨omitNameField, zeroValue .stringT⟩] _ _ rfl "num",
    C2_amended_fresh_full_replace
      [("name", JSONValue.str "foo"), ("num", JSONValue.num 1)] "*jsonobj.S"
      [⟨omitNameField, zeroValue .stringT⟩] _ _ rfl "name"⟩

/-- C8 amended: starting from an absent retained state, a successful decode
of a document every key of which is claimed by an active declared field
leaves the canonical absent retained state (`nil`, not an empty map); and
encoding a record with absent retained state whose active fields all carry
omit-when-empty and hold empty values yields the empty document. -/
theorem C8_amended_empty_state :
    (∀ (D : List (String × JSONValue)) (ty : String) (fields : List FieldState)
        (r' : Retain) (obj' : GoAny),
      Retain.FromJSON ⟨none⟩ (.obj D) (.ptrStruct ty ⟨fields⟩) = (.ok (), r', obj') →
      (∀ kv ∈ D, kv.1 ∈ activeNames fields) →
      r'.raw = none)
    ∧ (∀ (ty : String) (fields : List FieldState),
      (∀ f ∈ fields, isActive f.decl = true →
        tagOmitEmpty f.decl = true ∧ isZero f.value = true) →
      Retain.ToJSON ⟨none⟩ (.ptrStruct ty ⟨fields⟩) = .ok []) := by
  constructor
  · intro D ty fields r' obj' h hclaimed
    have hall : ∀ k, lookupRetain k r'.raw = none := by
      intro k
      rw [fromJSON_fresh_raw_lookup D ty fields r' obj' h k]
      by_cases hk : k ∈ activeNames fields
      · rw [if_pos hk]
      · rw [if_neg hk]
        refine lookupLast_eq_none_of_not_mem k D (fun hmem => hk ?_)
        simp only [keysOf, List.mem_map] at hmem
        obtain ⟨kv, hkv, hk1⟩ := hmem
        exact hk1 ▸ hclaimed kv hkv
    cases hraw : r'.raw with
    | none => rfl
    | some m =>
      have : m = [] := by
        refine eq_nil_of_lookupRaw_eq_none m (fun k => ?_)
        have := hall k
        rw [hraw] at this
        exact this
      subst this
      -- an empty non-nil map is impossible: FromJSON normalizes it to nil
      exfalso
      rw [FromJSON_obj_ptrStruct none D ty fields] at h
      cases ht : fromJSONFields fields
          (some (D.foldl (fun m kv => insertRaw kv.1 kv.2 m)
            ((none : Option RawMap).getD []))) with
      | mk res rest =>
        obtain ⟨f1, r1⟩ := rest
        rw [ht] at h
        cases res with
        | error e => simp at h
        | ok u =>
          cases u
          have hr : r'.raw = if (r1.getD []).isEmpty then none else r1 := by
            have := congrArg (fun t => t.2.1.raw) h
            simpa using this.symm
          rw [hraw] at hr
          by_cases he : (r1.getD []).isEmpty
          · rw [if_pos he] at hr
            exact Option.noConfusion hr
          · rw [if_neg he] at hr
            cases r1 with
            | none => exact Option.noConfusion hr
            | some m1 =>
              simp only [Option.some.injEq] at hr
              rw [← hr] at he
              simp [Option.getD] at he
  · intro ty fields hall
    show Except.ok (toJSONFields ((none : Option RawMap).getD []) fields) = _
    rw [show ((none : Option RawMap).getD []) = ([] : RawMap) from rfl,
      toJSONFields_all_skipped [] fields hall]

/-- Witness for C8's amended claim: `{"name":"x"}` decoded into a fresh
record of the test struct `S` leaves `nil` retained state, and encoding the
fresh record yields `{}`. -/
theorem C8_amended_empty_state_witness :
    (Retain.FromJSON ⟨none⟩ (.obj [("name", JSONValue.str "x")])
        (.ptrStruct "*jsonobj.S" ⟨[⟨omitNameField, zeroValue .stringT⟩]⟩)
      = (.ok (), ⟨none⟩,
         .ptrStruct "*jsonobj.S" ⟨[⟨omitNameField, GoValue.str "x"⟩]⟩)
    ∧ (Retain.FromJSON ⟨none⟩ (.obj [("name", JSONValue.str "x")])
        (.ptrStruct "*jsonobj.S" ⟨[⟨omitNameField, zeroValue .stringT⟩]⟩)).2.1.raw
      = none)
    ∧ Retain.ToJSON ⟨none⟩
        (.ptrStruct "*jsonobj.S" ⟨[⟨omitNameField, zeroValue .stringT⟩]⟩) = .ok [] :=
  ⟨⟨rfl,
    C8_amended_empty_state.1 [("name", JSONValue.str "x")] "*jsonobj.S"
      [⟨omitNameField, zeroValue .stringT⟩] _ _ rfl
      (by
        intro kv hkv
        simp only [List.mem_singleton] at hkv
        subst hkv
        decide)⟩,
    C8_amended_empty_state.2 "*jsonobj.S" [⟨omitNameField, zeroValue .stringT⟩]
      (by
        intro f hf ha
        simp only [List.mem_singleton] at hf
        subst hf
        exact ⟨by decide, by decide⟩)⟩

theorem emitsKey_eq_true_iff (f : FieldState) (k : String) :
    emitsKey f k = true
      ↔ isActive f.decl = true
        ∧ (tagOmitEmpty f.decl && isZero f.value) = false
        ∧ tagName f.decl = k := by
  simp only [emitsKey, Bool.and_eq_true, Bool.not_eq_true', decide_eq_true_eq]
  tauto

/-- With unique active names, an active, non-suppressed field is looked up
in the encode output at exactly its own encoded value. -/
theorem lookup_toJSONFields_of_emits (base : RawMap) (fields : List FieldState)
    (f : FieldState) (hf : f ∈ fields) (hnames : (activeNames fields).Nodup)
    (ha : isActive f.decl = true)
    (hns : (tagOmitEmpty f.decl && isZero f.value) = false) :
    lookupRaw (tagName f.decl) (toJSONFields base fields)
      = some (encodeValue f.value) := by
  rw [lookupRaw_toJSONFields]
  have hemit : emitsKey f (tagName f.decl) = true :=
    (emitsKey_eq_true_iff f (tagName f.decl)).2 ⟨ha, hns, rfl⟩
  have hsome : (emittedLast fields (tagName f.decl)).isSome :=
    (emittedLast_isSome_iff fields (tagName f.decl)).2 ⟨f, hf, hemit⟩
  cases hv : emittedLast fields (tagName f.decl) with
  | none => rw [hv] at hsome; simp at hsome
  | some v =>
    obtain ⟨g, hg, hge, hgv⟩ := emittedLast_eq_some fields (tagName f.decl) v hv
    obtain ⟨hga, hgns, hgn⟩ := (emitsKey_eq_true_iff g (tagName f.decl)).1 hge
    have : f = g := unique_active_field fields hnames hf hg ha hga hgn.symm
    subst this
    rw [hgv]

/-- With unique active names, a suppressed (omit-when-empty, empty-valued)
field contributes nothing: the encode output falls through to the working
map's base entry for its name. -/
theorem lookup_toJSONFields_of_skipped (base : RawMap) (fields : List FieldState)
    (f : FieldState) (hf : f ∈ fields) (hnames : (activeNames fields).Nodup)
    (ha : isActive f.decl = true)
    (hskip : (tagOmitEmpty f.decl && isZero f.value) = true) :
    lookupRaw (tagName f.decl) (toJSONFields base fields)
      = lookupRaw (tagName f.decl) base := by
  rw [lookupRaw_toJSONFields]
  cases hv : emittedLast fields (tagName f.decl) with
  | none => rfl
  | some v =>
    obtain ⟨g, hg, hge, hgv⟩ := emittedLast_eq_some fields (tagName f.decl) v hv
    obtain ⟨hga, hgns, hgn⟩ := (emitsKey_eq_true_iff g (tagName f.decl)).1 hge
    have : f = g := unique_active_field fields hnames hf hg ha hga hgn.symm
    subst this
    rw [hskip] at hgns
    exact absurd hgns (by simp)

/-- C3: in `ToJSON`, every active field that is not suppressed by
omit-when-empty appears in the output under its canonical name with the
field's current (encoded) value, overriding any identically-named retained
entry; the output binds every key at most once, and its key set is exactly
the emitted declared names together with the retained keys. -/
theorem C3_overlay_precedence (ty : String) (fields : List FieldState) (m : RawMap)
    (hnames : (activeNames fields).Nodup) (hkeys : (keysOf m).Nodup) :
    Retain.ToJSON ⟨some m⟩ (.ptrStruct ty ⟨fields⟩) = .ok (toJSONFields m fields)
    ∧ (∀ f ∈ fields, isActive f.decl = true →
        (tagOmitEmpty f.decl && isZero f.value) = false →
        lookupRaw (tagName f.decl) (toJSONFields m fields)
          = some (encodeValue f.value))
    ∧ (keysOf (toJSONFields m fields)).Nodup
    ∧ (∀ k, k ∈ keysOf (toJSONFields m fields)
        ↔ (∃ f ∈ fields, isActive f.decl = true
            ∧ (tagOmitEmpty f.decl && isZero f.value) = false
            ∧ tagName f.decl = k)
          ∨ k ∈ keysOf m) := by
  refine ⟨rfl, ?_, keysOf_nodup_toJSONFields m fields hkeys, ?_⟩
  · intro f hf ha hns
    exact lookup_toJSONFields_of_emits m fields f hf hnames ha hns
  · intro k
    rw [mem_keysOf_iff_lookupRaw, lookupRaw_toJSONFields]
    cases hv : emittedLast fields k with
    | some v =>
      simp only [Option.isSome_some, true_iff]
      obtain ⟨g, hg, hge, hgv⟩ := emittedLast_eq_some fields k v hv
      obtain ⟨hga, hgns, hgn⟩ := (emitsKey_eq_true_iff g k).1 hge
      exact Or.inl ⟨g, hg, hga, hgns, hgn⟩
    | none =>
      rw [← mem_keysOf_iff_lookupRaw]
      constructor
      · exact Or.inr
      · rintro (⟨f, hf, ha, hns, hn⟩ | hm)
        · exfalso
          have hemit : emitsKey f k = true := (emitsKey_eq_true_iff f k).2 ⟨ha, hns, hn⟩
          have hsome : (emittedLast fields k).isSome :=
            (emittedLast_isSome_iff fields k).2 ⟨f, hf, hemit⟩
          rw [hv] at hsome
          simp at hsome
        · exact hm

/-- Witness for C3 on the repository's round-trip scenario: the mutated
`slug` field overrides nothing retained, `icon` stays retained, and all
three keys appear exactly once. -/
theorem C3_overlay_precedence_witness :
    ((activeNames [⟨⟨"Title", true, ["title"], .stringT⟩, GoValue.str "Contact Us"⟩,
        ⟨⟨"Slug", true, ["slug"], .stringT⟩, GoValue.str "contact-us"⟩]).Nodup
      ∧ (keysOf [("icon", JSONValue.str "email")]).Nodup)
    ∧ lookupRaw "slug"
        (toJSONFields [("icon", JSONValue.str "email")]
          [⟨⟨"Title", true, ["title"], .stringT⟩, GoValue.str "Contact Us"⟩,
           ⟨⟨"Slug", true, ["slug"], .stringT⟩, GoValue.str "contact-us"⟩])
      = some (encodeValue (GoValue.str "contact-us"))
    ∧ (keysOf (toJSONFields [("icon", JSONValue.str "email")]
          [⟨⟨"Title", true, ["title"], .stringT⟩, GoValue.str "Contact Us"⟩,
           ⟨⟨"Slug", true, ["slug"], .stringT⟩, GoValue.str "contact-us"⟩])).Nodup := by
  have hn : (activeNames [⟨⟨"Title", true, ["title"], .stringT⟩, GoValue.str "Contact Us"⟩,
      ⟨⟨"Slug", true, ["slug"], .stringT⟩, GoValue.str "contact-us"⟩]).Nodup := by
    decide
  have hk : (keysOf [("icon", JSONValue.str "email")]).Nodup := by
    constructor
    · simp
    · exact List.nodup_nil
  have h := C3_overlay_precedence "jsonobj_test.Page"
    [⟨⟨"Title", true, ["title"], .stringT⟩, GoValue.str "Contact Us"⟩,
     ⟨⟨"Slug", true, ["slug"], .stringT⟩, GoValue.str "contact-us"⟩]
    [("icon", JSONValue.str "email")] hn hk
  refine ⟨⟨hn, hk⟩, ?_, h.2.2.1⟩
  exact h.2.1 ⟨⟨"Slug", true, ["slug"], .stringT⟩, GoValue.str "contact-us"⟩
    (by simp) (by decide) (by decide)

/-- Stated from the claim's own wording of emptiness, for comparison with
the code's `isZero`: the zero value for scalars, zero length for slices and
maps, and zero length for fixed-size arrays. -/
def specEmptyPerKind : GoValue → Bool
  | .str s => s = ""
  | .int n => n = 0
  | .bool b => b = false
  | .slice none => true
  | .slice (some l) => l.length = 0
  | .mapV none => true
  | .mapV (some l) => l.length = 0
  | .array l => l.length = 0

/-- C4: with the omit-when-empty flag, an active field is omitted from the
encode output exactly when its value is empty, where empty agrees per kind
with the claim's wording (zero scalar, zero-length slice/map/array, and an
array of length at least one is never empty); without the flag the field is
always included. Stated against an absent retained state so that omission is
observable as absence of the key. -/
theorem C4_omit_when_empty (ty : String) (fields : List FieldState) (f : FieldState)
    (hf : f ∈ fields) (ha : isActive f.decl = true)
    (hnames : (activeNames fields).Nodup) :
    Retain.ToJSON ⟨none⟩ (.ptrStruct ty ⟨fields⟩) = .ok (toJSONFields [] fields)
    ∧ (tagOmitEmpty f.decl = true →
        lookupRaw (tagName f.decl) (toJSONFields [] fields)
          = if isZero f.value then none else some (encodeValue f.value))
    ∧ (tagOmitEmpty f.decl = false →
        lookupRaw (tagName f.decl) (toJSONFields [] fields)
          = some (encodeValue f.value))
    ∧ (∀ v : GoValue, isZero v = specEmptyPerKind v)
    ∧ (∀ l : List GoValue, 1 ≤ l.length → isZero (.array l) = false) := by
  refine ⟨rfl, ?_, ?_, ?_, ?_⟩
  · intro ho
    by_cases hz : isZero f.value
    · rw [if_pos hz]
      rw [lookup_toJSONFields_of_skipped [] fields f hf hnames ha (by simp [ho, hz])]
      rfl
    · rw [if_neg hz]
      exact lookup_toJSONFields_of_emits [] fields f hf hnames ha
        (by simp [ho]; simpa using hz)
  · intro ho
    exact lookup_toJSONFields_of_emits [] fields f hf hnames ha (by simp [ho])
  · intro v
    cases v with
    | str s => rfl
    | int n => rfl
    | bool b => rfl
    | slice l =>
      cases l with
      | none => rfl
      | some l => cases l <;> simp [isZero, specEmptyPerKind]
    | mapV l =>
      cases l with
      | none => rfl
      | some l => cases l <;> simp [isZero, specEmptyPerKind]
    | array l => cases l <;> simp [isZero, specEmptyPerKind]
  · intro l hl
    cases l with
    | nil => simp at hl
    | cons a rest => simp [isZero]

/-- Witness for C4 on the omit-empty test struct: the zero string is
omitted, the set string is present, and a field without the flag keeps its
zero value in the output. -/
theorem C4_omit_when_empty_witness :
    lookupRaw "name" (toJSONFields [] [⟨omitNameField, GoValue.str ""⟩])
      = (if isZero (GoValue.str "") then none
         else some (encodeValue (GoValue.str "")))
    ∧ lookupRaw "name" (toJSONFields [] [⟨omitNameField, GoValue.str "foo"⟩])
      = (if isZero (GoValue.str "foo") then none
         else some (encodeValue (GoValue.str "foo")))
    ∧ lookupRaw "title"
        (toJSONFields [] [⟨⟨"Title", true, ["title"], .stringT⟩, GoValue.str ""⟩])
      = some (encodeValue (GoValue.str "")) :=
  ⟨(C4_omit_when_empty "*jsonobj.S" [⟨omitNameField, GoValue.str ""⟩]
      ⟨omitNameField, GoValue.str ""⟩ (by simp) (by decide) (by decide)).2.1
      (by decide),
   (C4_omit_when_empty "*jsonobj.S" [⟨omitNameField, GoValue.str "foo"⟩]
      ⟨omitNameField, GoValue.str "foo"⟩ (by simp) (by decide) (by decide)).2.1
      (by decide),
   (C4_omit_when_empty "jsonobj_test.Page"
      [⟨⟨"Title", true, ["title"], .stringT⟩, GoValue.str ""⟩]
      ⟨⟨"Title", true, ["title"], .stringT⟩, GoValue.str ""⟩
      (by simp) (by decide) (by decide)).2.2.1 (by decide)⟩

/-- Stated from the claim's wording: the first canonical name that collides
with an earlier one, scanning declaration order. -/
def firstDupName : List String → List String → Option String
  | [], _ => none
  | n :: rest, seen => if n ∈ seen then some n else firstDupName rest (n :: seen)

/-- Stated from the claim's wording: the first active field carrying a
modifier other than empty or `omitempty`, together with that exact token. -/
def firstUnsupportedTag : List GoStructField → Option (String × String)
  | [] => none
  | f :: rest =>
    if isActive f then
      match firstBadComponent f.tag.tail with
      | some c => some (tagName f, c)
      | none => firstUnsupportedTag rest
    else firstUnsupportedTag rest

theorem activeNamesD_cons_active (f : GoStructField) (rest : List GoStructField)
    (ha : isActive f = true) :
    activeNamesD (f :: rest) = tagName f :: activeNamesD rest := by
  simp [activeNamesD, List.filter_cons, ha]

theorem activeNamesD_cons_inactive (f : GoStructField) (rest : List GoStructField)
    (ha : isActive f = false) :
    activeNamesD (f :: rest) = activeNamesD rest := by
  simp [activeNamesD, List.filter_cons, ha]

theorem verifyDup_eq_firstDup (ds : List GoStructField) (seen : List String) :
    verifyNoDuplicateFieldNames ds seen
      = (firstDupName (activeNamesD ds) seen).map
          (fun n => "duplicate JSON field " ++ goQuote n) := by
  induction ds generalizing seen with
  | nil => rfl
  | cons f rest ih =>
    by_cases ha : isActive f
    · rw [activeNamesD_cons_active f rest ha]
      by_cases hm : tagName f ∈ seen
      · simp [verifyNoDuplicateFieldNames, ha, hm, firstDupName]
      · simp [verifyNoDuplicateFieldNames, ha, hm, firstDupName, ih]
    · have ha' : isActive f = false := by simpa using ha
      rw [activeNamesD_cons_inactive f rest ha']
      simp [verifyNoDuplicateFieldNames, ha', ih]

theorem verifyTags_eq_firstUnsupported (ds : List GoStructField) :
    verifyNoUnsupportedTags ds
      = (firstUnsupportedTag ds).map
          (fun p => "field " ++ goQuote p.1 ++ " has unsupported tag " ++ goQuote p.2) := by
  induction ds with
  | nil => rfl
  | cons f rest ih =>
    by_cases ha : isActive f
    · by_cases hlen : f.tag.length ≤ 1
      · have htail : f.tag.tail = [] := by
          cases ht : f.tag with
          | nil => rfl
          | cons a l =>
            rw [ht] at hlen
            simp only [List.length_cons] at hlen
            have : l.length = 0 := by omega
            simp [List.length_eq_zero.1 this]
        simp [verifyNoUnsupportedTags, firstUnsupportedTag, ha, hlen, htail,
          firstBadComponent, ih]
      · simp only [verifyNoUnsupportedTags, firstUnsupportedTag, ha, if_true, hlen,
          if_false]
        cases hb : firstBadComponent f.tag.tail with
        | some c => simp
        | none => simp [ih]
    · have ha' : isActive f = false := by simpa using ha
      simp [verifyNoUnsupportedTags, firstUnsupportedTag, ha', ih]

theorem firstDupName_eq_none_iff (names seen : List String) :
    firstDupName names seen = none ↔ names.Nodup ∧ ∀ n ∈ names, n ∉ seen := by
  induction names generalizing seen with
  | nil => simp [firstDupName]
  | cons n rest ih =>
    by_cases hm : n ∈ seen
    · simp only [firstDupName, hm, if_true]
      constructor
      · intro h
        exact absurd h (by simp)
      · rintro ⟨hnd, hall⟩
        exact absurd hm (hall n (List.mem_cons_self n rest))
    · simp only [firstDupName, hm, if_false, ih]
      constructor
      · rintro ⟨hnd, hall⟩
        refine ⟨List.nodup_cons.2 ⟨fun hn => hall n hn (List.mem_cons_self n seen), hnd⟩,
          fun m hm' => ?_⟩
        rcases List.mem_cons.1 hm' with rfl | hmr
        · exact hm
        · exact fun hms => hall m hmr (List.mem_cons_of_mem n hms)
      · rintro ⟨hnd, hall⟩
        obtain ⟨hnn, hndr⟩ := List.nodup_cons.1 hnd
        refine ⟨hndr, fun m hmr hms => ?_⟩
        rcases List.mem_cons.1 hms with hms' | hms'
        · subst hms'
          exact hnn hmr
        · exact hall m (List.mem_cons_of_mem n hmr) hms'

theorem firstBadComponent_eq_none_iff (l : List String) :
    firstBadComponent l = none ↔ ∀ c ∈ l, c = "" ∨ c = "omitempty" := by
  constructor
  · intro h c hc
    induction l with
    | nil => simp at hc
    | cons d rest ih =>
      by_cases hd : (d ≠ "" && d ≠ "omitempty") = true
      · have hcond : ¬d = "" ∧ ¬d = "omitempty" := by simpa using hd
        rw [show firstBadComponent (d :: rest)
            = if (d ≠ "" && d ≠ "omitempty") = true then some d
              else firstBadComponent rest from rfl, if_pos hd] at h
        exact absurd h (by simp)
      · have hd' : d = "" ∨ d = "omitempty" := by
          simpa [Decidable.not_not, or_iff_not_imp_left] using hd
        simp only [firstBadComponent, hd, Bool.false_eq_true, if_false] at h
        rcases List.mem_cons.1 hc with rfl | hcr
        · exact hd'
        · exact ih h hcr
  · exact firstBadComponent_eq_none l

theorem firstUnsupportedTag_eq_none_iff (ds : List GoStructField) :
    firstUnsupportedTag ds = none
      ↔ ∀ f ∈ ds, isActive f = true → ∀ c ∈ f.tag.tail, c = "" ∨ c = "omitempty" := by
  induction ds with
  | nil => simp [firstUnsupportedTag]
  | cons f rest ih =>
    by_cases ha : isActive f
    · cases hb : firstBadComponent f.tag.tail with
      | some c =>
        simp only [firstUnsupportedTag, ha, if_true, hb]
        constructor
        · intro h
          exact absurd h (by simp)
        · intro h
          have := (firstBadComponent_eq_none_iff f.tag.tail).2
            (h f (List.mem_cons_self f rest) ha)
          rw [hb] at this
          exact absurd this (by simp)
      | none =>
        simp only [firstUnsupportedTag, ha, if_true, hb, ih]
        constructor
        · intro h g hg hga
          rcases List.mem_cons.1 hg with hg' | hg'
          · subst hg'
            exact (firstBadComponent_eq_none_iff g.tag.tail).1 hb
          · exact h g hg' hga
        · intro h g hg hga
          exact h g (List.mem_cons_of_mem f hg) hga
    · have ha' : isActive f = false := by simpa using ha
      simp only [firstUnsupportedTag, ha', Bool.false_eq_true, if_false, ih]
      constructor
      · intro h g hg hga
        rcases List.mem_cons.1 hg with hg' | hg'
        · subst hg'
          rw [ha'] at hga
          exact absurd hga (by simp)
        · exact h g hg' hga
      · intro h g hg hga
        exact h g (List.mem_cons_of_mem f hg) hga

/-- C6 amended: for every struct-pointer type, `Retainable` succeeds exactly
when no two active declared fields share a canonical name and no active
field carries a modifier other than empty or `omitempty`; the first
colliding name is reported as `duplicate JSON field %q` (not
`duplicate field name %q` as the claim put it) and, when no duplicate
exists, the first unsupported modifier is reported as
`field %q has unsupported tag %q` naming the field and the exact bad token;
both are wrapped as `%T not Retainable: %v`. -/
theorem C6_amended_validation (ty : String) (fields : List FieldState) :
    (Retainable (.ptrStruct ty ⟨fields⟩) = none
      ↔ (activeNamesD (fields.map FieldState.decl)).Nodup
        ∧ ∀ f ∈ fields.map FieldState.decl, isActive f = true →
            ∀ c ∈ f.tag.tail, c = "" ∨ c = "omitempty")
    ∧ (∀ n, firstDupName (activeNamesD (fields.map FieldState.decl)) [] = some n →
        Retainable (.ptrStruct ty ⟨fields⟩)
          = some (ty ++ " not Retainable: "
              ++ ("duplicate JSON field " ++ goQuote n)))
    ∧ (firstDupName (activeNamesD (fields.map FieldState.decl)) [] = none →
      ∀ fn c, firstUnsupportedTag (fields.map FieldState.decl) = some (fn, c) →
        Retainable (.ptrStruct ty ⟨fields⟩)
          = some (ty ++ " not Retainable: "
              ++ ("field " ++ goQuote fn ++ " has unsupported tag " ++ goQuote c))) := by
  have h1 := verifyDup_eq_firstDup (fields.map FieldState.decl) []
  have h2 := verifyTags_eq_firstUnsupported (fields.map FieldState.decl)
  have hdup : ∀ n, firstDupName (activeNamesD (fields.map FieldState.decl)) [] = some n →
      Retainable (.ptrStruct ty ⟨fields⟩)
        = some (ty ++ " not Retainable: " ++ ("duplicate JSON field " ++ goQuote n)) := by
    intro n hn
    rw [hn] at h1
    simp only [Retainable, ensureStruct]
    rw [h1]
    rfl
  have hbad : firstDupName (activeNamesD (fields.map FieldState.decl)) [] = none →
      ∀ fn c, firstUnsupportedTag (fields.map FieldState.decl) = some (fn, c) →
      Retainable (.ptrStruct ty ⟨fields⟩)
        = some (ty ++ " not Retainable: "
            ++ ("field " ++ goQuote fn ++ " has unsupported tag " ++ goQuote c)) := by
    intro hd fn c hu
    rw [hd] at h1
    rw [hu] at h2
    simp only [Retainable, ensureStruct]
    rw [h1, h2]
    rfl
  have hok : firstDupName (activeNamesD (fields.map FieldState.decl)) [] = none →
      firstUnsupportedTag (fields.map FieldState.decl) = none →
      Retainable (.ptrStruct ty ⟨fields⟩) = none := by
    intro hd hu
    rw [hd] at h1
    rw [hu] at h2
    simp only [Retainable, ensureStruct]
    rw [h1, h2]
    rfl
  refine ⟨?_, hdup, hbad⟩
  constructor
  · intro h
    cases hd : firstDupName (activeNamesD (fields.map FieldState.decl)) [] with
    | some n =>
      rw [hdup n hd] at h
      exact absurd h (by simp)
    | none =>
      cases hu : firstUnsupportedTag (fields.map FieldState.decl) with
      | some p =>
        rw [hbad hd p.1 p.2 (by rw [hu]) ] at h
        exact absurd h (by simp)
      | none =>
        exact ⟨((firstDupName_eq_none_iff _ []).1 hd).1,
          (firstUnsupportedTag_eq_none_iff _).1 hu⟩
  · rintro ⟨hnd, hall⟩
    have hd : firstDupName (activeNamesD (fields.map FieldState.decl)) [] = none :=
      (firstDupName_eq_none_iff _ []).2 ⟨hnd, by simp⟩
    have hu : firstUnsupportedTag (fields.map FieldState.decl) = none :=
      (firstUnsupportedTag_eq_none_iff _).2 hall
    exact hok hd hu

/-- Witness for C6's amended claim: the valid test struct passes, the
duplicate-tag struct reports the first colliding name `name`, and the
`,string`-tagged struct reports the exact bad token. -/
theorem C6_amended_validation_witness :
    Retainable (.ptrStruct "*jsonobj.Valid"
        ⟨[⟨⟨"Name", true, [""], .stringT⟩, GoValue.str ""⟩,
          ⟨⟨"Name2", true, ["name"], .stringT⟩, GoValue.str ""⟩,
          ⟨⟨"Age", true, ["", "omitempty"], .intT⟩, GoValue.int 0⟩,
          ⟨⟨"Ignored", true, ["-"], .stringT⟩, GoValue.str ""⟩,
          ⟨⟨"Dash", true, ["-", ""], .stringT⟩, GoValue.str ""⟩]⟩) = none
    ∧ Retainable (.ptrStruct "*jsonobj.DuplicateNameTags"
        ⟨[⟨⟨"Name1", true, ["name"], .stringT⟩, GoValue.str ""⟩,
          ⟨⟨"Name2", true, ["name"], .stringT⟩, GoValue.str ""⟩]⟩)
      = some ("*jsonobj.DuplicateNameTags not Retainable: "
          ++ ("duplicate JSON field " ++ goQuote "name"))
    ∧ Retainable (.ptrStruct "*jsonobj.UnsupportedStringTag"
        ⟨[⟨⟨"Age", true, ["", "string"], .intT⟩, GoValue.int 0⟩]⟩)
      = some ("*jsonobj.UnsupportedStringTag not Retainable: "
          ++ ("field " ++ goQuote "Age" ++ " has unsupported tag " ++ goQuote "string")) := by
  refine ⟨?_, ?_, ?_⟩
  · exact (C6_amended_validation "*jsonobj.Valid"
      [⟨⟨"Name", true, [""], .stringT⟩, GoValue.str ""⟩,
       ⟨⟨"Name2", true, ["name"], .stringT⟩, GoValue.str ""⟩,
       ⟨⟨"Age", true, ["", "omitempty"], .intT⟩, GoValue.int 0⟩,
       ⟨⟨"Ignored", true, ["-"], .stringT⟩, GoValue.str ""⟩,
       ⟨⟨"Dash", true, ["-", ""], .stringT⟩, GoValue.str ""⟩]).1.2
      ⟨by decide, by decide⟩
  · exact (C6_amended_validation "*jsonobj.DuplicateNameTags"
      [⟨⟨"Name1", true, ["name"], .stringT⟩, GoValue.str ""⟩,
       ⟨⟨"Name2", true, ["name"], .stringT⟩, GoValue.str ""⟩]).2.1 "name" (by decide)
  · exact (C6_amended_validation "*jsonobj.UnsupportedStringTag"
      [⟨⟨"Age", true, ["", "string"], .intT⟩, GoValue.int 0⟩]).2.2 (by decide)
      "Age" "string" (by decide)

theorem tagName_updatedField (raw : Option RawMap) (f : FieldState) :
    tagName (updatedField raw f).decl = tagName f.decl := by
  rw [updatedField_decl]

theorem activeNames_map_updatedField (raw : Option RawMap) (fs : List FieldState) :
    activeNames (fs.map (updatedField raw)) = activeNames fs := by
  induction fs with
  | nil => rfl
  | cons f rest ih =>
    rw [List.map_cons]
    by_cases ha : isActive f.decl
    · rw [activeNames_cons_active _ _ (by rw [updatedField_decl]; exact ha),
        activeNames_cons_active f rest ha, ih, tagName_updatedField]
    · have ha' : isActive f.decl = false := by simpa using ha
      rw [activeNames_cons_inactive _ _ (by rw [updatedField_decl]; exact ha'),
        activeNames_cons_inactive f rest ha', ih]

/-- Core of the round-trip argument: re-encoding the decoded record against
the leftover raw map reproduces the original document, key by key. `M` is
any map that agrees with `D` on lookups (the merged unmarshal result) and
`raw1` any retained state holding exactly `D` minus the claimed keys. -/
theorem roundtrip_core (D : List (String × JSONValue)) (fields : List FieldState)
    (M : RawMap) (raw1 : Option RawMap)
    (hfresh : ∀ f ∈ fields, f.value = zeroValue f.decl.fieldType)
    (hnames : (activeNames fields).Nodup)
    (hdec : ∀ f ∈ fields, isActive f.decl = true →
      ∀ j, lookupRaw (tagName f.decl) D = some j →
        ∃ v, decodeInto f.decl.fieldType j = some v
          ∧ (tagOmitEmpty f.decl = true → isZero v = false))
    (habsent : ∀ f ∈ fields, isActive f.decl = true →
      lookupRaw (tagName f.decl) D = none →
        tagOmitEmpty f.decl = true ∧ isZero (zeroValue f.decl.fieldType) = true)
    (hM : ∀ k, lookupRaw k M = lookupRaw k D)
    (hraw1 : ∀ k, lookupRetain k raw1
      = if k ∈ activeNames fields then none else lookupRaw k D) :
    DocEquiv (toJSONFields (raw1.getD []) (fields.map (updatedField (some M)))) D := by
  intro k
  have hbase : lookupRaw k (raw1.getD [])
      = if k ∈ activeNames fields then none else lookupRaw k D := by
    rw [lookupRaw_getD]
    exact hraw1 k
  have hnames1 : (activeNames (fields.map (updatedField (some M)))).Nodup := by
    rw [activeNames_map_updatedField]
    exact hnames
  by_cases hk : k ∈ activeNames fields
  · obtain ⟨f, hf, ha, hn⟩ := (mem_activeNames fields k).1 hk
    cases hD : lookupRaw k D with
    | some j =>
      obtain ⟨v, hv, homit⟩ := hdec f hf ha j (hn ▸ hD)
      have hupd : updatedField (some M) f = { f with value := v } := by
        unfold updatedField
        rw [show lookupRetain (tagName f.decl) (some M)
            = lookupRaw (tagName f.decl) M from rfl, hM, hn, hD]
        simp [ha, hv]
      have hns : (tagOmitEmpty ({ f with value := v } : FieldState).decl
          && isZero ({ f with value := v } : FieldState).value) = false := by
        by_cases ho : tagOmitEmpty f.decl
        · simp [ho, homit ho]
        · have ho' : tagOmitEmpty f.decl = false := by simpa using ho
          simp [ho']
      have hmem : ({ f with value := v } : FieldState)
          ∈ fields.map (updatedField (some M)) := by
        rw [← hupd]
        exact List.mem_map_of_mem _ hf
      have hlem := lookup_toJSONFields_of_emits (raw1.getD [])
        (fields.map (updatedField (some M))) ({ f with value := v }) hmem hnames1
        ha hns
      rw [show tagName ({ f with value := v } : FieldState).decl = k from hn] at hlem
      rw [hlem, decodeInto_encodeValue f.decl.fieldType j v hv]
    | none =>
      obtain ⟨ho, hz⟩ := habsent f hf ha (hn ▸ hD)
      have hupd : updatedField (some M) f = f := by
        unfold updatedField
        rw [show lookupRetain (tagName f.decl) (some M)
            = lookupRaw (tagName f.decl) M from rfl, hM, hn, hD]
        simp [ha]
      have hzf : isZero f.value = true := by
        rw [hfresh f hf]
        exact hz
      have hskip : (tagOmitEmpty f.decl && isZero f.value) = true := by
        simp [ho, hzf]
      have hmem : f ∈ fields.map (updatedField (some M)) := by
        rw [← hupd]
        exact List.mem_map_of_mem _ hf
      have hlem := lookup_toJSONFields_of_skipped (raw1.getD [])
        (fields.map (updatedField (some M))) f hmem hnames1 ha hskip
      rw [hn] at hlem
      rw [hlem, hbase, if_pos hk]
  · have hemit : emittedLast (fields.map (updatedField (some M))) k = none := by
      cases hemit : emittedLast (fields.map (updatedField (some M))) k with
      | none => rfl
      | some w =>
        obtain ⟨g, hg, hge, _⟩ := emittedLast_eq_some _ k w hemit
        obtain ⟨hga, _, hgn⟩ := (emitsKey_eq_true_iff g k).1 hge
        exfalso
        apply hk
        rw [← activeNames_map_updatedField (some M) fields]
        exact (mem_activeNames _ k).2 ⟨g, hg, hga, hgn⟩
    rw [lookupRaw_toJSONFields, hemit, hbase, if_neg hk]

/-- C1 amended: round-trip identity, corrected for omit-when-empty. For a
fresh record (all fields at their zero value, no retained state) with
distinct active canonical names, decoding a duplicate-free object document
`D` whose known-key values decode into the declared field types and then
re-encoding yields a document equal to `D` under key-set/value equality,
provided that (a) no omit-when-empty field's key carries an empty decoded
value in `D`, and (b) every active field whose key is absent from `D` is an
omit-when-empty field whose zero value is empty. Without (a) and (b) the
round trip drops or adds keys. -/
theorem C1_amended_roundtrip (D : List (String × JSONValue)) (ty : String)
    (fields : List FieldState)
    (hfresh : ∀ f ∈ fields, f.value = zeroValue f.decl.fieldType)
    (hnames : (activeNames fields).Nodup)
    (hDkeys : (keysOf D).Nodup)
    (hdec : ∀ f ∈ fields, isActive f.decl = true →
      ∀ j, lookupRaw (tagName f.decl) D = some j →
        ∃ v, decodeInto f.decl.fieldType j = some v
          ∧ (tagOmitEmpty f.decl = true → isZero v = false))
    (habsent : ∀ f ∈ fields, isActive f.decl = true →
      lookupRaw (tagName f.decl) D = none →
        tagOmitEmpty f.decl = true ∧ isZero (zeroValue f.decl.fieldType) = true) :
    ∃ (r' : Retain) (obj' : GoAny) (out : RawMap),
      Retain.FromJSON ⟨none⟩ (.obj D) (.ptrStruct ty ⟨fields⟩) = (.ok (), r', obj')
      ∧ Retain.ToJSON r' obj' = .ok out
      ∧ DocEquiv out D := by
  have hMD : ∀ k, lookupRaw k (D.foldl (fun m kv => insertRaw kv.1 kv.2 m) [])
      = lookupRaw k D := by
    intro k
    rw [lookupRaw_foldl_insertRaw, lookupLast_eq_lookupRaw_of_nodup D hDkeys]
    cases lookupRaw k D <;> simp [lookupRaw]
  have hok : (fromJSONFields fields
      (some (D.foldl (fun m kv => insertRaw kv.1 kv.2 m) []))).1 = Except.ok () := by
    refine fromJSONFields_ok fields _ (fun f hf ha j hj => ?_)
    rw [show lookupRetain (tagName f.decl)
        (some (D.foldl (fun m kv => insertRaw kv.1 kv.2 m) []))
        = lookupRaw (tagName f.decl) (D.foldl (fun m kv => insertRaw kv.1 kv.2 m) [])
        from rfl, hMD] at hj
    obtain ⟨v, hv, _⟩ := hdec f hf ha j hj
    simp [hv]
  have htuple : fromJSONFields fields
      (some (D.foldl (fun m kv => insertRaw kv.1 kv.2 m) []))
      = (Except.ok (),
         (fromJSONFields fields
           (some (D.foldl (fun m kv => insertRaw kv.1 kv.2 m) []))).2.1,
         (fromJSONFields fields
           (some (D.foldl (fun m kv => insertRaw kv.1 kv.2 m) []))).2.2) := by
    rw [← hok]
  have hFJ : Retain.FromJSON ⟨none⟩ (.obj D) (.ptrStruct ty ⟨fields⟩)
      = (match fromJSONFields fields
            (some (D.foldl (fun m kv => insertRaw kv.1 kv.2 m) [])) with
         | (.error e, fields1, raw1) => (.error e, ⟨raw1⟩, .ptrStruct ty ⟨fields1⟩)
         | (.ok (), fields1, raw1) =>
           (.ok (), ⟨if (raw1.getD []).isEmpty then none else raw1⟩,
            .ptrStruct ty ⟨fields1⟩)) := rfl
  rw [htuple] at hFJ
  refine ⟨_, _, _, hFJ, rfl, ?_⟩
  have hfields1 := fromJSONFields_fields fields
    (some (D.foldl (fun m kv => insertRaw kv.1 kv.2 m) [])) hnames hok
  show DocEquiv (toJSONFields _ (fromJSONFields fields
    (some (D.foldl (fun m kv => insertRaw kv.1 kv.2 m) []))).2.1) D
  rw [hfields1]
  refine roundtrip_core D fields (D.foldl (fun m kv => insertRaw kv.1 kv.2 m) [])
    (if (((fromJSONFields fields
        (some (D.foldl (fun m kv => insertRaw kv.1 kv.2 m) []))).2.2).getD []).isEmpty
      then none
      else (fromJSONFields fields
        (some (D.foldl (fun m kv => insertRaw kv.1 kv.2 m) []))).2.2)
    hfresh hnames hdec habsent hMD ?_
  intro k
  rw [lookupRetain_normalize]
  have hraw1 := fromJSONFields_raw_lookup fields
    (some (D.foldl (fun m kv => insertRaw kv.1 kv.2 m) [])) k hok
  rw [show lookupRetain k (some (D.foldl (fun m kv => insertRaw kv.1 kv.2 m) []))
      = lookupRaw k (D.foldl (fun m kv => insertRaw kv.1 kv.2 m) []) from rfl,
    hMD] at hraw1
  exact hraw1

/-- Witness for C1's amended claim at the repository's own example: the Page
struct (declared `title`, `slug`, both non-omitempty and present) with the
extra key `icon` round-trips `{"title":"Contact Us","slug":"contact","icon":"email"}`. -/
theorem C1_amended_roundtrip_witness :
    ∃ (r' : Retain) (obj' : GoAny) (out : RawMap),
      Retain.FromJSON ⟨none⟩
          (.obj [("title", JSONValue.str "Contact Us"),
                 ("slug", JSONValue.str "contact"),
                 ("icon", JSONValue.str "email")])
          (.ptrStruct "*jsonobj_test.Page"
            ⟨[⟨⟨"Title", true, ["title"], .stringT⟩, zeroValue .stringT⟩,
              ⟨⟨"Slug", true, ["slug"], .stringT⟩, zeroValue .stringT⟩]⟩)
        = (.ok (), r', obj')
      ∧ Retain.ToJSON r' obj' = .ok out
      ∧ DocEquiv out
          [("title", JSONValue.str "Contact Us"),
           ("slug", JSONValue.str "contact"),
           ("icon", JSONValue.str "email")] := by
  refine C1_amended_roundtrip
    [("title", JSONValue.str "Contact Us"), ("slug", JSONValue.str "contact"),
     ("icon", JSONValue.str "email")]
    "*jsonobj_test.Page"
    [⟨⟨"Title", true, ["title"], .stringT⟩, zeroValue .stringT⟩,
     ⟨⟨"Slug", true, ["slug"], .stringT⟩, zeroValue .stringT⟩]
    ?_ (by decide) (by decide) ?_ ?_
  · intro f hf
    rcases List.mem_cons.1 hf with hf' | hf'
    · subst hf'
      rfl
    · rcases List.mem_cons.1 hf' with hf'' | hf''
      · subst hf''
        rfl
      · simp at hf''
  · intro f hf ha j hj
    rcases List.mem_cons.1 hf with hf' | hf'
    · subst hf'
      obtain rfl : JSONValue.str "Contact Us" = j :=
        Option.some.inj (show some (JSONValue.str "Contact Us") = some j from hj)
      exact ⟨GoValue.str "Contact Us", rfl, fun homit => absurd homit (by decide)⟩
    · rcases List.mem_cons.1 hf' with hf'' | hf''
      · subst hf''
        obtain rfl : JSONValue.str "contact" = j :=
          Option.some.inj (show some (JSONValue.str "contact") = some j from hj)
        exact ⟨GoValue.str "contact", rfl, fun homit => absurd homit (by decide)⟩
      · simp at hf''
  · intro f hf ha habs
    rcases List.mem_cons.1 hf with hf' | hf'
    · subst hf'
      exact absurd (show (some (JSONValue.str "Contact Us") : Option JSONValue) = none
        from habs) (by simp)
    · rcases List.mem_cons.1 hf' with hf'' | hf''
      · subst hf''
        exact absurd (show (some (JSONValue.str "contact") : Option JSONValue) = none
          from habs) (by simp)
      · simp at hf''
